import Mathlib

/-!
Verification of the recursive_remote git special remote.

This file gives a shallow embedding, in Lean, of the core algorithms of the
recursive_remote repository, and proves (or refutes) the specified claims
about them.  Each definition is translated from the Rust source file named
in its doc comment.  External primitives that the source treats as opaque
libraries (SHA-256 from the sha2 crate, the eseb authenticated encryption
stream, the git object store) are modelled as parameters, together with the
contracts those libraries document.

Machine integers: the byte streams handled by the codec are sequences of
u8 values; no arithmetic is performed on them, so bytes are modelled as
plain naturals.  usize arithmetic in the splitter (min, subtraction) is
modelled with Nat, which agrees with usize here because all quantities are
bounded by the configured chunk size (at most 2^30).
-/

namespace RR

/-- A byte (u8).  Only equality of bytes matters to the verified code. -/
abbrev Byte := Nat

/-! ### Codec: src/encoding.rs

The git object store is content addressed: SplitWriter.write_one stores the
scratch buffer with repo.write_stream and records the returned ObjectId, and
SplitReader.fill_buf recovers exactly those bytes with repo.find_blob.  The
embedding therefore identifies each recorded ObjectId with the byte content
it addresses, so the oids field below holds the stored blob contents, in
order. -/

/-- State of encoding.rs SplitWriter: the chunk size, the Option with the
remaining capacity of the current chunk, the scratch file content, and the
blobs committed so far. -/
structure SplitWriter where
  chunk_size : Nat
  current : Option Nat
  disk_buf : List Byte
  oids : List (List Byte)
deriving DecidableEq

/-- SplitWriter::new (the fresh scratch file is empty). -/
def SplitWriter.new (chunk_size : Nat) : SplitWriter :=
  { chunk_size := chunk_size, current := none, disk_buf := [], oids := [] }

/-- SplitWriter::write_one: store the scratch buffer as one blob and reset
the scratch file. -/
def SplitWriter.write_one (w : SplitWriter) : SplitWriter :=
  { w with oids := w.oids ++ [w.disk_buf], disk_buf := [] }

/-- SplitWriter::write (the Write impl): take the remaining capacity (or a
full chunk if none), copy at most that many bytes of buf into the scratch
file, and either remember the remaining capacity or flush the chunk.  The
scratch file write is total, so n = min remaining buf.len(). -/
def SplitWriter.write (w : SplitWriter) (buf : List Byte) : SplitWriter × Nat :=
  let remaining := w.current.getD w.chunk_size
  let n := min remaining buf.length
  let w1 : SplitWriter :=
    { w with current := none, disk_buf := w.disk_buf ++ buf.take n }
  if remaining - n > 0 then ({ w1 with current := some (remaining - n) }, n)
  else (w1.write_one, n)

/-- The write_all loop of std::io::Write, specialised to SplitWriter: call
write until the buffer is exhausted (a write returning 0 on a nonempty
buffer would abort with WriteZero; that case is unreachable for a positive
chunk size).  The Nat fuel makes the recursion structural; each iteration
consumes at least one byte, so fuel buf.length + 1 is never exhausted. -/
def SplitWriter.writeAllAux : Nat → SplitWriter → List Byte → SplitWriter
  | 0, w, _ => w
  | fuel + 1, w, buf =>
    if buf.isEmpty then w
    else
      let p := w.write buf
      if p.2 = 0 then p.1
      else SplitWriter.writeAllAux fuel p.1 (buf.drop p.2)

/-- write_all over a SplitWriter (sufficient fuel supplied). -/
def SplitWriter.write_all (w : SplitWriter) (buf : List Byte) : SplitWriter :=
  SplitWriter.writeAllAux (buf.length + 1) w buf

/-- SplitWriter::commit: flush the final (possibly short, possibly empty)
chunk and return the list of recorded blobs. -/
def SplitWriter.commit (w : SplitWriter) : List (List Byte) :=
  w.write_one.oids

/-- Closed form of the splitter output: the stream cut into chunk_size
pieces followed by the final short or empty piece.  Defined with explicit
fuel (the payload length bounds the recursion depth) so that it reduces in
the kernel. -/
def closedChunksAux (c : Nat) : Nat → List Byte → List (List Byte)
  | 0, payload => [payload]
  | fuel + 1, payload =>
    if c = 0 ∨ payload.length < c then [payload]
    else payload.take c :: closedChunksAux c fuel (payload.drop c)

/-- Closed form of the splitter output (sufficient fuel supplied). -/
def closedChunks (c : Nat) (payload : List Byte) : List (List Byte) :=
  closedChunksAux c payload.length payload

/-- The external cryptographic primitives used by encoding.rs, as an
abstract model:
* hash is sha2::Sha256 over a full byte stream (copy_and_hash feeds the
  stream to the hasher incrementally; the model takes the net function);
* enc is the composition of eseb::EncryptingWriter (with compression) and
  the record_reader record framing, for a given symmetric key: the bytes
  that reach the SplitWriter when the plaintext is written through the
  encrypting record writer and the writer is finalized with into_inner;
* dec is the inverse direction (IoRecordReader followed by
  eseb::DecryptingReader); it fails (None) when the stream does not
  decrypt under the key.
Keys are opaque (eseb::SymmetricKey), modelled by Nat. -/
structure CryptoModel where
  hash : List Byte → List Byte
  enc : Nat → List Byte → List Byte
  dec : Nat → List Byte → Option (List Byte)

/-- encoding.rs ResourceKey as the codec sees it: Git holds the ordered
list of stored blobs (identified with their contents, see above); Annex is
the reserved out-of-band variant. -/
inductive EncResourceKey
  | git (oids : List (List Byte))
  | annexKey (key : String)
deriving DecidableEq

/-- encoding.rs BlobRef: where the blob may be found plus the sha256 of the
contents. -/
structure EncBlobRef where
  resource_key : EncResourceKey
  sha256 : List Byte
deriving DecidableEq

/-- encoding.rs encode: stream the input through the sha256 hasher and
(optionally) the encrypting record writer into a SplitWriter with the given
chunk size, then commit.  Returns the BlobRef and bytes_copied (the number
of plaintext bytes read). -/
def encode (cm : CryptoModel) (key : Option Nat) (max_object_size : Nat)
    (s : List Byte) : EncBlobRef × Nat :=
  let payload := match key with
    | none => s
    | some k => cm.enc k s
  let w := (SplitWriter.new max_object_size).write_all payload
  ({ resource_key := .git w.commit, sha256 := cm.hash s }, s.length)

/-- Outcome of unverified::decode.  The plaintext argument of success and
hashMismatch records what was streamed to the destination writer before the
hash comparison; the hashMismatch error message contains
"Expected sha256 ..., got ...".  annexPanic models the
panic on the Annex variant; decryptError models a failure of the
decrypting record reader. -/
inductive DecodeOutcome
  | success (plaintext : List Byte)
  | hashMismatch (plaintext : List Byte)
  | decryptError
  | annexPanic
deriving DecidableEq

/-- The byte stream delivered by unverified::SplitReader over a blob list:
fill_buf pops at most one blob per refill and returns an empty slice when
the blob it popped is empty, which copy_and_hash treats as end of stream.
Reading therefore stops at the first empty blob, and the stream is the
concatenation of the maximal prefix of nonempty blobs. -/
def splitReaderStream (oids : List (List Byte)) : List Byte :=
  (oids.takeWhile fun b => !b.isEmpty).flatten

/-- The hash comparison at the end of unverified::decode: if a wanted
sha256 was supplied and differs from the computed one, bail with the
"Expected sha256" error. -/
def checkWantSha (cm : CryptoModel) (want : Option (List Byte))
    (plaintext : List Byte) : DecodeOutcome :=
  match want with
  | some w => if w = cm.hash plaintext then .success plaintext
              else .hashMismatch plaintext
  | none => .success plaintext

/-- encoding.rs unverified::decode: read the blobs of the resource key in
order through SplitReader (whose stream ends at the first empty blob, see
splitReaderStream), optionally pass the result through the decrypting
record reader, stream the plaintext to the destination while hashing it,
and finally compare against the wanted sha256 if given. -/
def decode_unverified (cm : CryptoModel) (key : Option Nat)
    (rk : EncResourceKey) (want : Option (List Byte)) : DecodeOutcome :=
  match key, rk with
  | _, .annexKey _ => .annexPanic
  | some k, .git oids =>
    match cm.dec k (splitReaderStream oids) with
    | none => .decryptError
    | some p => checkWantSha cm want p
  | none, .git oids => checkWantSha cm want (splitReaderStream oids)

/-- encoding.rs decode (the verified entry point): unverified::decode with
want_sha256 set to the sha256 recorded in the BlobRef. -/
def decode (cm : CryptoModel) (key : Option Nat) (source_ref : EncBlobRef) :
    DecodeOutcome :=
  decode_unverified cm key source_ref.resource_key (some source_ref.sha256)

/-! ### Data model: src/serialization.rs

In-memory types.  gix_hash::ObjectId is a 20 byte identifier.  A Rust
HashMap is modelled as its list of entries in iteration order; the derived
PartialEq of HashMap compares the key to value maps regardless of entry
order, which the theorems express through lookup extensionality
(mapEqv below). -/

/-- A 20 byte backend object id (gix_hash::ObjectId). -/
abbrev ObjectId := { l : List Byte // l.length = 20 }

/-- A 32 byte inner hash value ([u8; 32]); the fixed length plays no role
in the verified claims, so it is not enforced by the type. -/
abbrev Sha256 := List Byte

/-- serialization.rs ResourceKey. -/
inductive ResourceKey
  | git (oids : List ObjectId)
  | annexKey (key : String)
deriving DecidableEq

/-- serialization.rs BlobRef. -/
structure BlobRef where
  resource_key : ResourceKey
  sha256 : Sha256
deriving DecidableEq

/-- serialization.rs StateRef (a newtype over BlobRef). -/
structure StateRef where
  val : BlobRef
deriving DecidableEq

/-- serialization.rs NamespaceRef (a newtype over BlobRef). -/
structure NamespaceRef where
  val : BlobRef
deriving DecidableEq

/-- serialization.rs PackRef. -/
structure PackRef where
  blob_ref : BlobRef
  random_name : List Byte
deriving DecidableEq

/-- serialization.rs Ref. -/
inductive Ref
  | direct (oid : ObjectId)
  | symbolic (name : String) (oid_at_time : Option ObjectId)
deriving DecidableEq

/-- serialization.rs Ref::shallow_equal. -/
def Ref.shallow_equal : Ref → Ref → Bool
  | .direct a, .direct b => a = b
  | .symbolic a _, .symbolic b _ => a = b
  | _, _ => false

/-- serialization.rs Namespace (refs is a HashMap, modelled by its entry
list). -/
structure Namespace where
  refs : List (String × Ref)
  pack : Option PackRef
  random_name : List Byte
deriving DecidableEq

/-- serialization.rs State (namespaces is a HashMap, modelled by its entry
list). -/
structure State where
  namespaces : List (String × NamespaceRef)
  parents : List StateRef
deriving DecidableEq

/-- State::default(). -/
def State.default : State := { namespaces := [], parents := [] }

/-! Serialized forms.  A BTreeMap is its sorted entry list.  The [u8; 20]
payloads of SerializedRef and SerializedPackRef reuse the ObjectId subtype:
ObjectId::as_bytes and ObjectId::from_bytes_or_panic translate between an
id and its exactly-20 bytes, so the two representations coincide. -/

/-- serialization.rs SerializedResourceKey: the Git variant is one flat
byte array of length 20 times the id count. -/
inductive SerializedResourceKey
  | git (bytes : List Byte)
  | annexKey (key : String)
deriving DecidableEq

/-- serialization.rs SerializedBlobRef. -/
structure SerializedBlobRef where
  resource_key : SerializedResourceKey
  sha256 : Sha256
deriving DecidableEq

/-- serialization.rs SerializedStateRef. -/
structure SerializedStateRef where
  val : SerializedBlobRef
deriving DecidableEq

/-- serialization.rs SerializedNamespaceRef. -/
structure SerializedNamespaceRef where
  val : SerializedBlobRef
deriving DecidableEq

/-- serialization.rs SerializedRef. -/
inductive SerializedRef
  | direct (bytes : ObjectId)
  | symbolic (name : String) (snapshot : Option ObjectId)
deriving DecidableEq

/-- serialization.rs SerializedPackRef. -/
structure SerializedPackRef where
  blob_ref : SerializedBlobRef
  random_name : List Byte
deriving DecidableEq

/-- serialization.rs SerializedNamespace (refs is a BTreeMap: a key-sorted
entry list). -/
structure SerializedNamespace where
  refs : List (String × SerializedRef)
  pack : Option SerializedPackRef
  random_name : List Byte
deriving DecidableEq

/-- serialization.rs SerializedState (namespaces is a BTreeMap: a
key-sorted entry list). -/
structure SerializedState where
  namespaces : List (String × SerializedNamespaceRef)
  parents : List SerializedStateRef
deriving DecidableEq

/-! Conversions between the two forms, and the order used when sorting. -/

/-- Rust slice chunks_exact(20) over a byte array, keeping only the full
chunks, each converted with ObjectId::from_bytes_or_panic.  Explicit fuel
(bounded by the list length) keeps the recursion structural. -/
def chunksExact20Aux : Nat → List Byte → List ObjectId
  | 0, _ => []
  | fuel + 1, l =>
    if h : l.length < 20 then []
    else
      ⟨l.take 20, by rw [List.length_take]; omega⟩ ::
        chunksExact20Aux fuel (l.drop 20)

/-- chunks_exact(20) with sufficient fuel supplied. -/
def chunksExact20 (l : List Byte) : List ObjectId :=
  chunksExact20Aux l.length l

/-- From ResourceKey for SerializedResourceKey: concatenate the raw bytes
of the ids. -/
def ResourceKey.intoSerialized : ResourceKey → SerializedResourceKey
  | .git oids => .git (oids.map Subtype.val).flatten
  | .annexKey k => .annexKey k

/-- TryFrom SerializedResourceKey for ResourceKey: reject a Git payload
whose length is not a multiple of 20, then split into 20 byte ids. -/
def SerializedResourceKey.tryIntoResourceKey :
    SerializedResourceKey → Except String ResourceKey
  | .git s_oids =>
    if s_oids.length % 20 = 0 then .ok (.git (chunksExact20 s_oids))
    else .error "oids are 20 bytes each"
  | .annexKey k => .ok (.annexKey k)

/-- From BlobRef for SerializedBlobRef. -/
def BlobRef.intoSerialized (r : BlobRef) : SerializedBlobRef :=
  { resource_key := r.resource_key.intoSerialized, sha256 := r.sha256 }

/-- TryFrom SerializedBlobRef for BlobRef. -/
def SerializedBlobRef.tryIntoBlobRef (r : SerializedBlobRef) :
    Except String BlobRef :=
  match r.resource_key.tryIntoResourceKey with
  | .error e => .error e
  | .ok rk => .ok { resource_key := rk, sha256 := r.sha256 }

/-- From StateRef for SerializedStateRef. -/
def StateRef.intoSerialized (r : StateRef) : SerializedStateRef :=
  { val := r.val.intoSerialized }

/-- TryFrom SerializedStateRef for StateRef. -/
def SerializedStateRef.tryIntoStateRef (r : SerializedStateRef) :
    Except String StateRef :=
  match r.val.tryIntoBlobRef with
  | .error e => .error e
  | .ok b => .ok { val := b }

/-- From NamespaceRef for SerializedNamespaceRef. -/
def NamespaceRef.intoSerialized (r : NamespaceRef) : SerializedNamespaceRef :=
  { val := r.val.intoSerialized }

/-- TryFrom SerializedNamespaceRef for NamespaceRef. -/
def SerializedNamespaceRef.tryIntoNamespaceRef (r : SerializedNamespaceRef) :
    Except String NamespaceRef :=
  match r.val.tryIntoBlobRef with
  | .error e => .error e
  | .ok b => .ok { val := b }

/-- From Ref for SerializedRef (as_bytes on each id). -/
def Ref.intoSerialized : Ref → SerializedRef
  | .direct oid => .direct oid
  | .symbolic s d => .symbolic s d

/-- TryFrom SerializedRef for Ref (from_bytes_or_panic on each id). -/
def SerializedRef.tryIntoRef : SerializedRef → Except String Ref
  | .direct b => .ok (.direct b)
  | .symbolic s d => .ok (.symbolic s d)

/-- From PackRef for SerializedPackRef. -/
def PackRef.intoSerialized (r : PackRef) : SerializedPackRef :=
  { blob_ref := r.blob_ref.intoSerialized, random_name := r.random_name }

/-- TryFrom SerializedPackRef for PackRef. -/
def SerializedPackRef.tryIntoPackRef (r : SerializedPackRef) :
    Except String PackRef :=
  match r.blob_ref.tryIntoBlobRef with
  | .error e => .error e
  | .ok b => .ok { blob_ref := b, random_name := r.random_name }

/-- Stable insertion of an element into a list using a boolean
less-or-equal test: the element goes before the first strictly greater
element, after equal ones. -/
def insertLe (le : α → α → Bool) (a : α) : List α → List α
  | [] => [a]
  | b :: l => if le a b ∧ ¬ le b a then a :: b :: l else b :: insertLe le a l

/-- Stable insertion sort; models Rust stable sorts: Vec::sort (for the
parents vector) and the key-ordered iteration of a BTreeMap collected from
an entry sequence with distinct keys. -/
def insertionSortBy (le : α → α → Bool) : List α → List α
  | [] => []
  | a :: l => insertLe le a (insertionSortBy le l)

/-- Lexicographic comparison of byte sequences (the Ord instance of Rust
slices and arrays of u8). -/
def cmpBytes : List Byte → List Byte → Ordering
  | [], [] => .eq
  | [], _ :: _ => .lt
  | _ :: _, [] => .gt
  | a :: as_, b :: bs =>
    match compare a b with
    | .eq => cmpBytes as_ bs
    | o => o

/-- The derived Ord of SerializedResourceKey: variant index first (Git
before Annex), then the payload.  Strings compare by their UTF-8 bytes;
comparing the codepoint sequences is equivalent because UTF-8 preserves
codepoint order. -/
def cmpSerializedResourceKey :
    SerializedResourceKey → SerializedResourceKey → Ordering
  | .git a, .git b => cmpBytes a b
  | .git _, .annexKey _ => .lt
  | .annexKey _, .git _ => .gt
  | .annexKey a, .annexKey b => cmpBytes (a.data.map Char.toNat) (b.data.map Char.toNat)

/-- The derived Ord of SerializedBlobRef: resource_key, then sha256. -/
def cmpSerializedBlobRef (a b : SerializedBlobRef) : Ordering :=
  match cmpSerializedResourceKey a.resource_key b.resource_key with
  | .eq => cmpBytes a.sha256 b.sha256
  | o => o

/-- The derived Ord of SerializedStateRef. -/
def cmpSerializedStateRef (a b : SerializedStateRef) : Ordering :=
  cmpSerializedBlobRef a.val b.val

/-- Less-or-equal on SerializedStateRef, for the parents sort. -/
def leSerializedStateRef (a b : SerializedStateRef) : Bool :=
  cmpSerializedStateRef a b ≠ .gt

/-- Less-or-equal on map keys: the Ord of Rust String (byte
lexicographic). -/
def leStringKey (a b : String) : Bool :=
  cmpBytes (a.data.map Char.toNat) (b.data.map Char.toNat) ≠ .gt

/-- Collecting an entry sequence into a BTreeMap: the entries in key-sorted
order. -/
def collectBTreeMap (l : List (String × α)) : List (String × α) :=
  insertionSortBy (fun x y => leStringKey x.1 y.1) l

/-- From Namespace for SerializedNamespace: refs collected into a BTreeMap
(key-sorted), pack and random_name converted directly. -/
def Namespace.intoSerialized (n : Namespace) : SerializedNamespace :=
  { refs := collectBTreeMap (n.refs.map fun p => (p.1, p.2.intoSerialized))
    pack := n.pack.map PackRef.intoSerialized
    random_name := n.random_name }

/-- Fallible conversion of every entry value of an association list. -/
def tryConvertEntries (f : α → Except String β) :
    List (String × α) → Except String (List (String × β))
  | [] => .ok []
  | (k, v) :: rest =>
    match f v with
    | .error e => .error e
    | .ok w =>
      match tryConvertEntries f rest with
      | .error e => .error e
      | .ok ws => .ok ((k, w) :: ws)

/-- Fallible conversion of every element of a list. -/
def tryConvertList (f : α → Except String β) :
    List α → Except String (List β)
  | [] => .ok []
  | v :: rest =>
    match f v with
    | .error e => .error e
    | .ok w =>
      match tryConvertList f rest with
      | .error e => .error e
      | .ok ws => .ok (w :: ws)

/-- TryFrom SerializedNamespace for Namespace: convert each ref entry and
the optional pack, propagating errors. -/
def SerializedNamespace.tryIntoNamespace (n : SerializedNamespace) :
    Except String Namespace :=
  match tryConvertEntries SerializedRef.tryIntoRef n.refs with
  | .error e => .error e
  | .ok refs =>
    match n.pack with
    | none => .ok { refs := refs, pack := none, random_name := n.random_name }
    | some p =>
      match p.tryIntoPackRef with
      | .error e => .error e
      | .ok q => .ok { refs := refs, pack := some q, random_name := n.random_name }

/-- From State for SerializedState: namespaces collected into a BTreeMap
(key-sorted) and parents sorted by the derived Ord of their serialized
form. -/
def State.intoSerialized (s : State) : SerializedState :=
  { namespaces :=
      collectBTreeMap (s.namespaces.map fun p => (p.1, p.2.intoSerialized))
    parents :=
      insertionSortBy leSerializedStateRef (s.parents.map StateRef.intoSerialized) }

/-- TryFrom SerializedState for State: convert each namespace entry and
each parent, propagating errors. -/
def SerializedState.tryIntoState (s : SerializedState) : Except String State :=
  match tryConvertEntries SerializedNamespaceRef.tryIntoNamespaceRef s.namespaces with
  | .error e => .error e
  | .ok namespaces =>
    match tryConvertList SerializedStateRef.tryIntoStateRef s.parents with
    | .error e => .error e
    | .ok parents => .ok { namespaces := namespaces, parents := parents }

/-- Lookup extensionality: what the derived PartialEq of HashMap compares
(same keys bound to same values); entry order is irrelevant. -/
def mapEqv (a b : List (String × α)) : Prop :=
  ∀ k, a.lookup k = b.lookup k

/-- Rust equality of two in-memory States: namespaces as maps, parents as
an ordered vector. -/
def State.rustEq (a b : State) : Prop :=
  mapEqv a.namespaces b.namespaces ∧ a.parents = b.parents

/-- Rust equality of two in-memory Namespaces: refs as maps, pack and
random_name structurally. -/
def Namespace.rustEq (a b : Namespace) : Prop :=
  mapEqv a.refs b.refs ∧ a.pack = b.pack ∧ a.random_name = b.random_name

/-! ### Ratchet: src/update.rs

encoding::decode_state against the tracking repository is modelled as a
function from a StateRef to its outcome: the decoded State, an integrity
failure (record_reader::HashError, skipped by the walk), or any other
error (fatal). -/

/-- Outcome of encoding::decode_state for one StateRef in the tracking
repository. -/
inductive StateDecodeOutcome
  | ok (state : State)
  | hashError
  | fatalError
deriving DecidableEq

/-- The while let Some(traverse) = stack.pop() loop of valid_path_exists.
The Rust stack is a Vec popped from the end; the model keeps the top of the
stack at the head, so stack.append(&mut state.parents) becomes
state.parents.reverse ++ rest.  Fuel counts loop iterations; none means
the fuel ran out before the loop finished. -/
def valid_path_exists_loop (store : StateRef → StateDecodeOutcome)
    (current : StateRef) : Nat → List StateRef → Option (Except Unit Bool)
  | _, [] => some (.ok false)
  | 0, _ :: _ => none
  | fuel + 1, traverse :: rest =>
    match store traverse with
    | .ok state =>
      if current ∈ state.parents then some (.ok true)
      else valid_path_exists_loop store current fuel (state.parents.reverse ++ rest)
    | .hashError => valid_path_exists_loop store current fuel rest
    | .fatalError => some (.error ())

/-- update.rs valid_path_exists: accept immediately on equal inner hashes,
otherwise walk the parent references depth first from future, skipping
states that fail decoding with a HashError and failing on any other decode
error. -/
def valid_path_exists (store : StateRef → StateDecodeOutcome)
    (current future : StateRef) (fuel : Nat) : Option (Except Unit Bool) :=
  if current.val.sha256 = future.val.sha256 then some (.ok true)
  else valid_path_exists_loop store current fuel [future]

/-- What update.rs update_tracking_branch does to the tracking ref. -/
inductive UpdateOutcome
  | advance (f : StateRef)
  | dropTracking
  | ratchetError
  | fatalError
deriving DecidableEq

/-- update.rs update_tracking_branch, at the level of the resolved states:
when both the tracking and the pushing ref resolve, require
valid_path_exists (surfacing RatchetError when it returns false); then
point the tracking ref at the pushing tip when present, or delete it. -/
def update_tracking_branch (store : StateRef → StateDecodeOutcome)
    (cur fut : Option StateRef) (fuel : Nat) : Option UpdateOutcome :=
  match cur, fut with
  | some c, some f =>
    match valid_path_exists store c f fuel with
    | none => none
    | some (.error _) => some .fatalError
    | some (.ok false) => some .ratchetError
    | some (.ok true) => some (.advance f)
  | none, some f => some (.advance f)
  | _, none => some .dropTracking

/-- current is transitively contained in the parents of a state: some
chain of parent links, each through a state that decodes successfully,
leads from the given root to a state whose parents contain current. -/
inductive InParents (store : StateRef → StateDecodeOutcome)
    (current : StateRef) : StateRef → Prop
  | found (r : StateRef) (s : State) :
      store r = .ok s → current ∈ s.parents → InParents store current r
  | via (r : StateRef) (s : State) (p : StateRef) :
      store r = .ok s → p ∈ s.parents → InParents store current p →
      InParents store current r

/-- The ratchet walk terminates: some finite number of loop iterations
produces a result. -/
def RatchetTerminates (store : StateRef → StateDecodeOutcome)
    (current future : StateRef) : Prop :=
  ∃ fuel r, valid_path_exists store current future fuel = some r

/-! ### Per-ref fast-forward: src/persistence.rs

The all-objects repository is modelled by the kind of each object (none if
find_object fails) and the parent list of each commit (what
gix_revision::Graph::insert_parents reports). -/

/-- Kinds of git objects (gix_object::Kind). -/
inductive GitObjectKind
  | commit
  | tree
  | blob
  | tag
deriving DecidableEq

/-- Model of the all-objects-ever repository for can_fast_forward. -/
structure RepoModel where
  kind : ObjectId → Option GitObjectKind
  parents : ObjectId → List ObjectId

/-- One graph.insert_parents call of graph_descendant_of: scan the parents
of the popped id; a parent already in the stateful graph is ignored
(second closure); a new parent is recorded, and either sets found (if it
equals old) or is pushed onto the stack. -/
def insert_parents_step (old : ObjectId) (ps : List ObjectId)
    (vis stk : List ObjectId) (found : Bool) :
    List ObjectId × List ObjectId × Bool :=
  match ps with
  | [] => (vis, stk, found)
  | p :: rest =>
    if p ∈ vis then insert_parents_step old rest vis stk found
    else if p = old then insert_parents_step old rest (p :: vis) stk true
    else insert_parents_step old rest (p :: vis) (p :: stk) found

/-- The while let Some(id) = stack.pop() loop of graph_descendant_of.
vis is the set of ids already inserted into the stateful graph.  Fuel
counts loop iterations. -/
def graph_descendant_loop (repo : RepoModel) (old : ObjectId) :
    Nat → List ObjectId → List ObjectId → Option Bool
  | _, _, [] => some false
  | 0, _, _ :: _ => none
  | fuel + 1, vis, id :: rest =>
    let r := insert_parents_step old (repo.parents id) vis rest false
    if r.2.2 then some true else graph_descendant_loop repo old fuel r.1 r.2.1

/-- persistence.rs graph_descendant_of: a commit is a descendant of
itself; otherwise search the parent graph from new for old. -/
def graph_descendant_of (repo : RepoModel) (new old : ObjectId) (fuel : Nat) :
    Option Bool :=
  if new = old then some true
  else graph_descendant_loop repo old fuel [] [new]

/-- old is reachable from n by one or more parent edges of the commit
graph. -/
inductive ReachesParent (parents : ObjectId → List ObjectId)
    (old : ObjectId) : ObjectId → Prop
  | base (n : ObjectId) : old ∈ parents n → ReachesParent parents old n
  | step (n p : ObjectId) : p ∈ parents n → ReachesParent parents old p →
      ReachesParent parents old n

/-- Ghost-instrumented graph_descendant_loop that additionally records the
ids popped from the stack (expanded).  Used only to state the loop
invariants; it projects onto graph_descendant_loop. -/
def graph_descendant_loop_g (repo : RepoModel) (old : ObjectId) :
    Nat → List ObjectId → List ObjectId → List ObjectId →
      Option (Bool × List ObjectId × List ObjectId)
  | _, vis, [], exp => some (false, vis, exp)
  | 0, _, _ :: _, _ => none
  | fuel + 1, vis, id :: rest, exp =>
    let r := insert_parents_step old (repo.parents id) vis rest false
    if r.2.2 then some (true, r.1, id :: exp)
    else graph_descendant_loop_g repo old fuel r.1 r.2.1 (id :: exp)

/-- Errors surfaced by can_fast_forward: find_object failed for one of the
two ids. -/
inductive FfError
  | missingObject
deriving DecidableEq

/-- Rust str::starts_with, over the character sequences of the two
strings. -/
def strStartsWith (s p : String) : Bool :=
  p.data.isPrefixOf s.data

/-- persistence.rs can_fast_forward: equal refs are allowed; tag names
with an existing value are rejected; symbolic refs are rejected; for two
direct refs both objects must be commits and the new one a descendant of
the old. -/
def can_fast_forward (repo : RepoModel) (name : String)
    (current future : Ref) (fuel : Nat) : Option (Except FfError Bool) :=
  if current = future then some (.ok true)
  else
    match current, future with
    | .direct old, .direct new =>
      if strStartsWith name "refs/tags/" then some (.ok false)
      else
        match repo.kind old, repo.kind new with
        | some old_kind, some new_kind =>
          if old_kind ≠ .commit ∨ new_kind ≠ .commit then some (.ok false)
          else
            match graph_descendant_of repo new old fuel with
            | none => none
            | some b => some (.ok b)
        | _, _ => some (.error .missingObject)
    | _, _ => some (.ok false)

/-! ### Namespace update on push: src/persistence.rs
update_namespace_with_push. -/

/-- HashMap::insert: replace the value of an existing key, else add the
entry. -/
def insertAssoc (k : String) (v : α) : List (String × α) → List (String × α)
  | [] => [(k, v)]
  | (k1, v1) :: rest =>
    if k1 = k then (k, v) :: rest else (k1, v1) :: insertAssoc k v rest

/-- HashMap::remove. -/
def removeAssoc (k : String) : List (String × α) → List (String × α)
  | [] => []
  | (k1, v1) :: rest =>
    if k1 = k then rest else (k1, v1) :: removeAssoc k rest

/-- The loop of update_namespace_with_push over the non-force refs: look
up the prior value of each name in the namespace being replaced (the
original namespace argument), run the fast-forward check when one exists
and admit unconditionally otherwise, apply admitted targets to future, and
record the per-ref status. -/
def unwp_refs_loop (repo : RepoModel) (fuel : Nat)
    (orig_refs : List (String × Ref)) (future : Namespace)
    (status : List (String × Bool)) :
    List (String × Ref) → Option (Except FfError (Namespace × List (String × Bool)))
  | [] => some (.ok (future, status))
  | (name, future_target) :: rest =>
    match (match orig_refs.lookup name with
           | some current_target =>
             can_fast_forward repo name current_target future_target fuel
           | none => some (.ok true)) with
    | none => none
    | some (.error e) => some (.error e)
    | some (.ok ff) =>
      unwp_refs_loop repo fuel orig_refs
        (if ff then { future with refs := insertAssoc name future_target future.refs }
         else future)
        (insertAssoc name ff status) rest

/-- The loop of update_namespace_with_push over the force refs: every
entry gets status true; a Some target is applied, a None target deletes
the ref. -/
def unwp_force_loop (future : Namespace) (status : List (String × Bool)) :
    List (String × Option Ref) → Namespace × List (String × Bool)
  | [] => (future, status)
  | (name, some t) :: rest =>
    unwp_force_loop { future with refs := insertAssoc name t future.refs }
      (insertAssoc name true status) rest
  | (name, none) :: rest =>
    unwp_force_loop { future with refs := removeAssoc name future.refs }
      (insertAssoc name true status) rest

/-- persistence.rs update_namespace_with_push.  The pack argument models
the encoded output of the pack-objects subprocess: Some exactly when the
encoder copied more than zero bytes (the random name having been drawn
fresh), applied to future.pack at the end. -/
def update_namespace_with_push (repo : RepoModel) (fuel : Nat)
    (ns : Namespace) (pack : Option PackRef)
    (refs : List (String × Ref)) (force_refs : List (String × Option Ref)) :
    Option (Except FfError (Namespace × List (String × Bool))) :=
  match unwp_refs_loop repo fuel ns.refs ns [] refs with
  | none => none
  | some (.error e) => some (.error e)
  | some (.ok (future, status)) =>
    let r := unwp_force_loop future status force_refs
    some (.ok ({ r.1 with pack := pack }, r.2))

/-! ### Command protocol: src/main.rs -/

/-- char::is_ascii_whitespace: space, horizontal tab, line feed, form
feed, carriage return. -/
def isAsciiWhitespace (c : Char) : Bool :=
  c = ' ' ∨ c = '\t' ∨ c = '\n' ∨ c = '\x0c' ∨ c = '\r'

/-- split_ascii_whitespace().next().unwrap_or_default(): the first
whitespace-separated token of the line (the maximal run of non-whitespace
characters after the leading whitespace), or the empty string. -/
def first_token (line : String) : String :=
  ⟨(line.data.dropWhile fun c => isAsciiWhitespace c).takeWhile
    fun c => ¬ isAsciiWhitespace c⟩

/-- main.rs ProtocolCommand. -/
inductive ProtocolCommand
  | capabilities
  | listRefs
  | push
  | fetch
  | ignore
deriving DecidableEq

/-- main.rs parse_protocol_command: exact match for capabilities, then
starts_with tests for list, push and fetch, otherwise Ignore. -/
def parse_protocol_command (line : String) : ProtocolCommand :=
  let command := first_token line
  if command = "capabilities" then .capabilities
  else if strStartsWith command "list" then .listRefs
  else if strStartsWith command "push" then .push
  else if strStartsWith command "fetch" then .fetch
  else .ignore

/-- main.rs dispatch_protocol_command, with the four command handlers (and
the further lines they may consume) abstracted into one oracle: an Ignore
line invokes no handler and yields Ok(()), so the command loop proceeds to
the next line. -/
def dispatch_protocol_command (handler : ProtocolCommand → Except Unit Unit)
    (line : String) : Except Unit Unit :=
  match parse_protocol_command line with
  | .ignore => .ok ()
  | c => handler c

/-! ### Push retry loop: src/cmd_push.rs -/

/-- cmd_push.rs PushResult (push statuses modelled as the entry list of
the HashMap). -/
inductive PushResult
  | ok (push_status : List (String × Bool))
  | retry
deriving DecidableEq

/-- cmd_push.rs classify_failed_push_for_retry: after a failed upstream
push, retry exactly when the freshly reconciled state identifier differs
from the one observed at the start of the attempt; otherwise surface the
push error. -/
def classify_failed_push_for_retry
    (previous_state_identifier new_state_identifier : Option StateRef) :
    Except Unit PushResult :=
  if new_state_identifier ≠ previous_state_identifier then .ok .retry
  else .error ()

/-- The for _ in 0..25 loop of cmd_push.rs push, with attempt_push
abstracted as a function from the attempt index to its outcome: an
attempt either errors (propagated by the question mark operator), succeeds
with per-ref statuses, or asks for a retry.  remaining counts the loop
iterations still allowed; when it reaches zero the loop falls through to
the final error. -/
def push_loop_from (attempt : Nat → Except Unit PushResult) :
    Nat → Nat → Except Unit (List (String × Bool))
  | _, 0 => .error ()
  | i, remaining + 1 =>
    match attempt i with
    | .error e => .error e
    | .ok (.ok push_status) => .ok push_status
    | .ok .retry => push_loop_from attempt (i + 1) remaining

/-- cmd_push.rs push, outcome of the retry loop (the spec parsing and the
per-ref status printing around it do not affect the loop itself). -/
def push_loop (attempt : Nat → Except Unit PushResult) :
    Except Unit (List (String × Bool)) :=
  push_loop_from attempt 0 25

/-- A concrete instantiation of the abstract crypto primitives, for
witnesses: the hash of a byte list is the list itself, encryption is the
identity, decryption always succeeds. -/
def cmId : CryptoModel :=
  { hash := fun s => s, enc := fun _ s => s, dec := fun _ s => some s }

/-- A concrete StateRef with inner hash 1 repeated (witness data). -/
def wStateRefA : StateRef := ⟨⟨.git [], List.replicate 32 1⟩⟩

/-- A concrete StateRef with inner hash 2 repeated (witness data). -/
def wStateRefB : StateRef := ⟨⟨.git [], List.replicate 32 2⟩⟩

/-- A concrete two-state tracking store: wStateRefA decodes to a state
whose single parent is wStateRefB; everything else decodes to the empty
state. -/
def wStore : StateRef → StateDecodeOutcome := fun r =>
  if r = wStateRefA then .ok { namespaces := [], parents := [wStateRefB] }
  else .ok { namespaces := [], parents := [] }

/-- A size measure for wStore, decreasing along parent links. -/
def wSz : StateRef → Nat := fun r => if r = wStateRefA then 2 else 1

/-- A concrete StateRef with inner hash 3 repeated (cyclic store data). -/
def cycRef : StateRef := ⟨⟨.git [], List.replicate 32 3⟩⟩

/-- A concrete StateRef with inner hash 4 repeated (cyclic store data). -/
def cycCur : StateRef := ⟨⟨.git [], List.replicate 32 4⟩⟩

/-- A cyclic tracking store: every StateRef decodes to a state whose
single parent is cycRef, so the parent graph has a self loop at cycRef. -/
def cycStore : StateRef → StateDecodeOutcome := fun _ =>
  .ok { namespaces := [], parents := [cycRef] }

/-- A concrete ObjectId, 1 repeated (witness data). -/
def wOid1 : ObjectId := ⟨List.replicate 20 1, by simp⟩

/-- A concrete ObjectId, 2 repeated (witness data). -/
def wOid2 : ObjectId := ⟨List.replicate 20 2, by simp⟩

/-- A concrete two-commit repository: wOid2 has the single parent wOid1;
every object is a commit. -/
def wRepo : RepoModel :=
  { kind := fun _ => some .commit
    parents := fun o => if o = wOid2 then [wOid1] else [] }

/-- A symbolic ref named HEAD with snapshot wOid1 (counterexample data). -/
def wSymA : Ref := .symbolic "HEAD" (some wOid1)

/-- A symbolic ref named HEAD with snapshot wOid2 (counterexample data). -/
def wSymB : Ref := .symbolic "HEAD" (some wOid2)

/-- A concrete State whose parents are listed in descending serialized
order (counterexample data: wStateRefB sorts after wStateRefA). -/
def c6State : State := { namespaces := [], parents := [wStateRefB, wStateRefA] }

/-- A concrete State with sorted parents and one namespace (witness
data). -/
def c6WitState : State :=
  { namespaces := [("ns", ⟨⟨.git [wOid1], List.replicate 32 7⟩⟩)]
    parents := [wStateRefA, wStateRefB] }

/-- A concrete Namespace with one ref and a pack (witness data). -/
def c6WitNs : Namespace :=
  { refs := [("refs/heads/main", .direct wOid1)]
    pack := some ⟨⟨.git [wOid2], List.replicate 32 8⟩, List.replicate 20 3⟩
    random_name := List.replicate 20 9 }

/-- An empty Namespace (witness data). -/
def wEmptyNs : Namespace := { refs := [], pack := none, random_name := [] }

/-! ## Theorems -/

theorem closedChunksAux_stable (c : Nat) :
    ∀ f1 f2 (p : List Byte), p.length ≤ f1 → p.length ≤ f2 →
      closedChunksAux c f1 p = closedChunksAux c f2 p := by
  intro f1
  induction f1 with
  | zero =>
    intro f2 p h1 _
    have hp : p = [] := List.eq_nil_of_length_eq_zero (Nat.le_zero.mp h1)
    subst hp
    cases f2 with
    | zero => rfl
    | succ f2 =>
      simp only [closedChunksAux, List.length_nil]
      rcases Nat.eq_zero_or_pos c with h | h
      · simp [h]
      · simp [h]
  | succ f1 ih =>
    intro f2 p h1 h2
    cases f2 with
    | zero =>
      have hp : p = [] := List.eq_nil_of_length_eq_zero (Nat.le_zero.mp h2)
      subst hp
      simp only [closedChunksAux, List.length_nil]
      rcases Nat.eq_zero_or_pos c with h | h
      · simp [h]
      · simp [h]
    | succ f2 =>
      simp only [closedChunksAux]
      by_cases hcond : c = 0 ∨ p.length < c
      · simp [hcond]
      · simp only [hcond, if_false]
        have hc : 0 < c := by
          rcases Nat.eq_zero_or_pos c with h | h
          · exact absurd (Or.inl h) hcond
          · exact h
        have hlen : (p.drop c).length ≤ f1 := by
          simp only [List.length_drop]; omega
        have hlen2 : (p.drop c).length ≤ f2 := by
          simp only [List.length_drop]; omega
        rw [ih f2 (p.drop c) hlen hlen2]

theorem closedChunks_step (c : Nat) (p : List Byte) :
    closedChunks c p =
      if c = 0 ∨ p.length < c then [p]
      else p.take c :: closedChunks c (p.drop c) := by
  by_cases hcond : c = 0 ∨ p.length < c
  · cases hp : p.length with
    | zero =>
      have hp0 : p = [] := List.eq_nil_of_length_eq_zero hp
      subst hp0
      simp only [closedChunks, List.length_nil, closedChunksAux]
      rcases Nat.eq_zero_or_pos c with h | h
      · simp [h]
      · simp [h]
    | succ n =>
      rw [hp] at hcond
      simp [closedChunks, hp, closedChunksAux, hcond]
  · have hc : 0 < c := by
      rcases Nat.eq_zero_or_pos c with h | h
      · exact absurd (Or.inl h) hcond
      · exact h
    have hle : c ≤ p.length := by
      rcases Nat.lt_or_ge p.length c with h | h
      · exact absurd (Or.inr h) hcond
      · exact h
    cases hp : p.length with
    | zero => omega
    | succ n =>
      simp only [closedChunks, hp, closedChunksAux, hcond, if_false]
      have : (p.drop c).length ≤ n := by simp only [List.length_drop]; omega
      rw [closedChunksAux_stable c n (p.drop c).length (p.drop c) this le_rfl]

theorem writeAllAux_nil (fuel : Nat) (w : SplitWriter) :
    SplitWriter.writeAllAux fuel w [] = w := by
  cases fuel with
  | zero => rfl
  | succ fuel => simp [SplitWriter.writeAllAux]

theorem writeAllAux_fresh (c : Nat) (hc : 0 < c) :
    ∀ fuel (buf : List Byte) (os : List (List Byte)), buf.length < fuel →
      (SplitWriter.writeAllAux fuel
          { chunk_size := c, current := none, disk_buf := [], oids := os }
          buf).commit = os ++ closedChunks c buf := by
  intro fuel
  induction fuel with
  | zero => intro buf os h; omega
  | succ fuel ih =>
    intro buf os h
    by_cases hbuf : buf.isEmpty
    · have hb : buf = [] := by
        cases buf with
        | nil => rfl
        | cons a l => simp [List.isEmpty] at hbuf
      subst hb
      simp [SplitWriter.writeAllAux, SplitWriter.commit, SplitWriter.write_one,
        closedChunks, closedChunksAux]
    · have hlen : 0 < buf.length := by
        cases buf with
        | nil => simp [List.isEmpty] at hbuf
        | cons a l => simp
      rcases Nat.lt_or_ge buf.length c with hsm | hge
      · -- final short chunk: fill the scratch buffer and stop
        have hmin : min c buf.length = buf.length := Nat.min_eq_right (Nat.le_of_lt hsm)
        have hrem : c - buf.length > 0 := by omega
        simp only [SplitWriter.writeAllAux, hbuf, if_false, SplitWriter.write,
          Option.getD, hmin, hrem, if_pos, List.take_length, List.nil_append]
        have hne : ¬ buf.length = 0 := by omega
        simp only [hne, if_false, List.drop_length, writeAllAux_nil,
          SplitWriter.commit, SplitWriter.write_one]
        rw [closedChunks_step]
        simp [Nat.not_eq_zero_of_lt hc, hsm, List.take_of_length_le (Nat.le_refl _)]
      · -- full chunk: flush and continue on the remainder
        have hmin : min c buf.length = c := Nat.min_eq_left hge
        have hne : ¬ c = 0 := by omega
        have hstep :
            SplitWriter.writeAllAux (fuel + 1)
                { chunk_size := c, current := none, disk_buf := [], oids := os } buf =
              SplitWriter.writeAllAux fuel
                { chunk_size := c, current := none, disk_buf := [],
                  oids := os ++ [buf.take c] } (buf.drop c) := by
          simp [SplitWriter.writeAllAux, hbuf, SplitWriter.write, Option.getD,
            hmin, SplitWriter.write_one, hne]
        rw [hstep]
        have hdrop : (buf.drop c).length < fuel := by
          simp only [List.length_drop]; omega
        rw [ih (buf.drop c) (os ++ [buf.take c]) hdrop]
        rw [closedChunks_step c buf]
        have hcond : ¬ (c = 0 ∨ buf.length < c) := by omega
        simp [hcond]

theorem write_all_commit (c : Nat) (hc : 0 < c) (buf : List Byte) :
    ((SplitWriter.new c).write_all buf).commit = closedChunks c buf := by
  have := writeAllAux_fresh c hc (buf.length + 1) buf [] (Nat.lt_succ_self _)
  simpa [SplitWriter.new, SplitWriter.write_all] using this

theorem closedChunks_flatten (c : Nat) (hc : 0 < c) (p : List Byte) :
    (closedChunks c p).flatten = p := by
  have H : ∀ n (p : List Byte), p.length ≤ n → (closedChunks c p).flatten = p := by
    intro n
    induction n with
    | zero =>
      intro p h
      have hp : p = [] := List.eq_nil_of_length_eq_zero (Nat.le_zero.mp h)
      subst hp
      rw [closedChunks_step]
      simp [hc]
    | succ n ih =>
      intro p h
      rw [closedChunks_step]
      by_cases hcond : c = 0 ∨ p.length < c
      · simp [hcond]
      · have hge : c ≤ p.length := by omega
        have hdrop : (p.drop c).length ≤ n := by
          simp only [List.length_drop]; omega
        simp only [hcond, if_false, List.flatten_cons, ih (p.drop c) hdrop]
        exact List.take_append_drop c p
  exact H p.length p le_rfl

theorem splitReaderStream_singleton (p : List Byte) :
    splitReaderStream [p] = p := by
  cases p with
  | nil => rfl
  | cons a l => simp [splitReaderStream, List.takeWhile]

theorem closedChunks_splitReader (c : Nat) (hc : 0 < c) (p : List Byte) :
    splitReaderStream (closedChunks c p) = p := by
  have H : ∀ n (p : List Byte), p.length ≤ n →
      splitReaderStream (closedChunks c p) = p := by
    intro n
    induction n with
    | zero =>
      intro p h
      have hp : p = [] := List.eq_nil_of_length_eq_zero (Nat.le_zero.mp h)
      subst hp
      rw [closedChunks_step]
      rw [if_pos (Or.inr (by simpa using hc))]
      exact splitReaderStream_singleton []
    | succ n ih =>
      intro p h
      rw [closedChunks_step]
      by_cases hcond : c = 0 ∨ p.length < c
      · rw [if_pos hcond]
        exact splitReaderStream_singleton p
      · have hge : c ≤ p.length := by omega
        have hcpos : 0 < c := by omega
        rw [if_neg hcond]
        have htlen : (p.take c).length = c := by
          rw [List.length_take]
          omega
        have hne : (p.take c).isEmpty = false := by
          cases htc : p.take c with
          | nil => rw [htc] at htlen; simp at htlen; omega
          | cons a l => rfl
        have hdrop : (p.drop c).length ≤ n := by
          simp only [List.length_drop]
          omega
        simp only [splitReaderStream, List.takeWhile_cons, hne, Bool.not_false,
          if_true, List.flatten_cons]
        have := ih (p.drop c) hdrop
        simp only [splitReaderStream] at this
        rw [this]
        exact List.take_append_drop c p
  exact H p.length p le_rfl

theorem closedChunks_length (c : Nat) (hc : 0 < c) (p : List Byte) :
    (closedChunks c p).length = p.length / c + 1 := by
  have H : ∀ n (p : List Byte), p.length ≤ n →
      (closedChunks c p).length = p.length / c + 1 := by
    intro n
    induction n with
    | zero =>
      intro p h
      have hp : p = [] := List.eq_nil_of_length_eq_zero (Nat.le_zero.mp h)
      subst hp
      rw [closedChunks_step]
      simp [hc]
    | succ n ih =>
      intro p h
      rw [closedChunks_step]
      by_cases hcond : c = 0 ∨ p.length < c
      · have hlt : p.length < c := by
          rcases hcond with h0 | h1
          · omega
          · exact h1
        simp [hcond, Nat.div_eq_of_lt hlt]
      · have hge : c ≤ p.length := by omega
        have hdrop : (p.drop c).length ≤ n := by
          simp only [List.length_drop]; omega
        simp only [hcond, if_false, List.length_cons, ih (p.drop c) hdrop,
          List.length_drop]
        rw [Nat.div_eq_sub_div hc hge]
  exact H p.length p le_rfl

theorem closedChunks_each_le (c : Nat) (hc : 0 < c) (p : List Byte) :
    ∀ q ∈ closedChunks c p, q.length ≤ c := by
  have H : ∀ n (p : List Byte), p.length ≤ n →
      ∀ q ∈ closedChunks c p, q.length ≤ c := by
    intro n
    induction n with
    | zero =>
      intro p h q hq
      have hp : p = [] := List.eq_nil_of_length_eq_zero (Nat.le_zero.mp h)
      subst hp
      rw [closedChunks_step] at hq
      simp [hc] at hq
      simp [hq]
    | succ n ih =>
      intro p h q hq
      rw [closedChunks_step] at hq
      by_cases hcond : c = 0 ∨ p.length < c
      · have hlt : p.length < c := by
          rcases hcond with h0 | h1
          · omega
          · exact h1
        simp only [hcond, if_true, List.mem_singleton] at hq
        subst hq
        omega
      · have hge : c ≤ p.length := by omega
        simp only [hcond, if_false, List.mem_cons] at hq
        rcases hq with hq | hq
        · subst hq
          simp only [List.length_take]
          omega
        · have hdrop : (p.drop c).length ≤ n := by
            simp only [List.length_drop]; omega
          exact ih (p.drop c) hdrop q hq
  exact H p.length p le_rfl

/-- C1: for every byte sequence, every chunk size in the configured range,
and every key choice (no key, or any key of an encryption scheme whose
decryption inverts encryption, as eseb documents), decoding the BlobRef
produced by encode with the same key streams exactly the original sequence
to the sink, and the inner hash stored in the BlobRef is the SHA-256 of
the plaintext. -/
theorem codec_round_trip (cm : CryptoModel) (key : Option Nat) (C : Nat)
    (s : List Byte) (hC : 10 ≤ C ∧ C ≤ 2 ^ 30)
    (hdec : ∀ k p, cm.dec k (cm.enc k p) = some p) :
    decode cm key (encode cm key C s).1 = .success s ∧
      (encode cm key C s).1.sha256 = cm.hash s := by
  have hc : 0 < C := by omega
  cases key with
  | none =>
    constructor
    · simp only [encode, decode, decode_unverified, write_all_commit C hc,
        closedChunks_splitReader C hc, checkWantSha]
      simp
    · simp [encode]
  | some k =>
    constructor
    · simp only [encode, decode, decode_unverified, write_all_commit C hc,
        closedChunks_splitReader C hc, hdec k s, checkWantSha]
      simp
    · simp [encode]

theorem codec_round_trip_witness :
    decode cmId (some 5) (encode cmId (some 5) 10 [1, 2, 3]).1 =
        .success [1, 2, 3] ∧
      (encode cmId (some 5) 10 [1, 2, 3]).1.sha256 = cmId.hash [1, 2, 3] :=
  codec_round_trip cmId (some 5) 10 [1, 2, 3] (by decide)
    (fun _ _ => rfl)

/-- C2: for a BlobRef over backend blobs and a key choice under which the
stored stream (as SplitReader delivers it: the blobs up to the first empty
one) yields a plaintext (trivially for no key; via the decrypting reader
otherwise), the verified decode fails with the "Expected sha256" error
exactly when the SHA-256 of the decoded, decrypted, concatenated plaintext
differs from the inner hash recorded in the BlobRef, and succeeds (having
streamed that plaintext to the sink) exactly when they agree. -/
theorem decode_integrity_check (cm : CryptoModel) (key : Option Nat)
    (ref : EncBlobRef) (chunks : List (List Byte)) (p : List Byte)
    (hrk : ref.resource_key = .git chunks)
    (hp : match key with
          | none => p = splitReaderStream chunks
          | some k => cm.dec k (splitReaderStream chunks) = some p) :
    (decode cm key ref = .hashMismatch p ↔ cm.hash p ≠ ref.sha256) ∧
      (decode cm key ref = .success p ↔ cm.hash p = ref.sha256) := by
  cases key with
  | none =>
    simp only at hp
    subst hp
    by_cases h : ref.sha256 = cm.hash (splitReaderStream chunks)
    · have hd : decode cm none ref = .success (splitReaderStream chunks) := by
        simp [decode, decode_unverified, hrk, checkWantSha, h]
      rw [hd]
      constructor
      · constructor
        · intro hcontra
          exact DecodeOutcome.noConfusion hcontra
        · intro hne
          exact absurd h.symm hne
      · constructor
        · intro _
          exact h.symm
        · intro _
          rfl
    · have hd : decode cm none ref = .hashMismatch (splitReaderStream chunks) := by
        simp [decode, decode_unverified, hrk, checkWantSha, h]
      rw [hd]
      constructor
      · constructor
        · intro _
          exact fun hh => h hh.symm
        · intro _
          rfl
      · constructor
        · intro hcontra
          exact DecodeOutcome.noConfusion hcontra
        · intro hh
          exact absurd hh.symm h
  | some k =>
    simp only at hp
    by_cases h : ref.sha256 = cm.hash p
    · have hd : decode cm (some k) ref = .success p := by
        simp [decode, decode_unverified, hrk, hp, checkWantSha, h]
      rw [hd]
      constructor
      · constructor
        · intro hcontra
          exact DecodeOutcome.noConfusion hcontra
        · intro hne
          exact absurd h.symm hne
      · constructor
        · intro _
          exact h.symm
        · intro _
          rfl
    · have hd : decode cm (some k) ref = .hashMismatch p := by
        simp [decode, decode_unverified, hrk, hp, checkWantSha, h]
      rw [hd]
      constructor
      · constructor
        · intro _
          exact fun hh => h hh.symm
        · intro _
          rfl
      · constructor
        · intro hcontra
          exact DecodeOutcome.noConfusion hcontra
        · intro hh
          exact absurd hh.symm h

theorem decode_integrity_check_witness :
    (decode cmId none ⟨.git [[1, 2]], [9]⟩ = .hashMismatch [1, 2] ↔
        cmId.hash [1, 2] ≠ ([9] : List Byte)) ∧
      (decode cmId none ⟨.git [[1, 2]], [9]⟩ = .success [1, 2] ↔
        cmId.hash [1, 2] = ([9] : List Byte)) :=
  decode_integrity_check cmId none ⟨.git [[1, 2]], [9]⟩ [[1, 2]] [1, 2]
    rfl (by simp [splitReaderStream])

/-- C9: encoding a stream of length L without a key at chunk size C
produces a resource key of exactly L / C + 1 backend blobs, each of at
most C bytes, whose concatenation is the input; the empty input yields one
empty blob and the hash of the empty string. -/
theorem split_writer_chunk_count (cm : CryptoModel) (C : Nat) (s : List Byte)
    (hC : 10 ≤ C ∧ C ≤ 2 ^ 30) :
    ∃ chunks, (encode cm none C s).1.resource_key = .git chunks ∧
      chunks.length = s.length / C + 1 ∧
      (∀ q ∈ chunks, q.length ≤ C) ∧
      chunks.flatten = s ∧
      (s = [] → chunks = [[]] ∧ (encode cm none C s).1.sha256 = cm.hash []) := by
  have hc : 0 < C := by omega
  refine ⟨closedChunks C s, ?_, ?_, ?_, ?_, ?_⟩
  · simp [encode, write_all_commit C hc]
  · exact closedChunks_length C hc s
  · exact closedChunks_each_le C hc s
  · exact closedChunks_flatten C hc s
  · intro hs
    subst hs
    constructor
    · rw [closedChunks_step]
      simp [hc]
    · simp [encode]

theorem split_writer_chunk_count_witness :
    ∃ chunks, (encode cmId none 10 [1, 2, 3]).1.resource_key = .git chunks ∧
      chunks.length = ([1, 2, 3] : List Byte).length / 10 + 1 ∧
      (∀ q ∈ chunks, q.length ≤ 10) ∧
      chunks.flatten = [1, 2, 3] ∧
      ([1, 2, 3] = ([] : List Byte) → chunks = [[]] ∧
        (encode cmId none 10 [1, 2, 3]).1.sha256 = cmId.hash []) :=
  split_writer_chunk_count cmId 10 [1, 2, 3] (by decide)

/-! Ratchet walk lemmas.  The measure hypothesis (each decodable state is
strictly larger than all of its parents together) holds for every finite
acyclic parent graph, and in particular for states actually stored in a
tracking repository, whose parent links follow cryptographic hashes. -/

theorem valid_path_loop_char (store : StateRef → StateDecodeOutcome)
    (sz : StateRef → Nat) (current : StateRef)
    (hsz : ∀ r s, store r = .ok s → (s.parents.map sz).sum < sz r)
    (hnofatal : ∀ r, store r ≠ .fatalError) :
    ∀ n stack, (stack.map sz).sum ≤ n →
      ∃ fuel b, valid_path_exists_loop store current fuel stack = some (.ok b) ∧
        (b = true ↔ ∃ r ∈ stack, InParents store current r) := by
  intro n
  induction n using Nat.strong_induction_on with
  | _ n ihn =>
    intro stack
    induction stack with
    | nil =>
      intro _
      exact ⟨0, false, rfl, by simp⟩
    | cons r rest ihrest =>
      intro hsum
      simp only [List.map_cons, List.sum_cons] at hsum
      cases hstore : store r with
      | ok s =>
        by_cases hmem : current ∈ s.parents
        · refine ⟨1, true, ?_, ?_⟩
          · simp [valid_path_exists_loop, hstore, hmem]
          · constructor
            · intro _
              exact ⟨r, List.mem_cons_self r rest, InParents.found r s hstore hmem⟩
            · intro _
              rfl
        · have hpar : (s.parents.map sz).sum < sz r := hsz r s hstore
          have hlt : ((s.parents.reverse ++ rest).map sz).sum < n := by
            simp only [List.map_append, List.sum_append, List.map_reverse,
              List.sum_reverse]
            omega
          obtain ⟨fuel1, b, hb, hiff⟩ :=
            ihn ((s.parents.reverse ++ rest).map sz).sum hlt
              (s.parents.reverse ++ rest) le_rfl
          refine ⟨fuel1 + 1, b, ?_, ?_⟩
          · simp [valid_path_exists_loop, hstore, hmem, hb]
          · rw [hiff]
            constructor
            · rintro ⟨r2, hr2, hInP⟩
              rcases List.mem_append.mp hr2 with hr2 | hr2
              · exact ⟨r, List.mem_cons_self r rest,
                  InParents.via r s r2 hstore (List.mem_reverse.mp hr2) hInP⟩
              · exact ⟨r2, List.mem_cons_of_mem r hr2, hInP⟩
            · rintro ⟨r2, hr2, hInP⟩
              rcases List.mem_cons.mp hr2 with hr2 | hr2
              · subst hr2
                cases hInP with
                | found _ s2 hstore2 hmem2 =>
                  rw [hstore] at hstore2
                  cases hstore2
                  exact absurd hmem2 hmem
                | via _ s2 p hstore2 hp hInPp =>
                  rw [hstore] at hstore2
                  cases hstore2
                  exact ⟨p, List.mem_append.mpr (Or.inl (List.mem_reverse.mpr hp)),
                    hInPp⟩
              · exact ⟨r2, List.mem_append.mpr (Or.inr hr2), hInP⟩
      | hashError =>
        have hle : (rest.map sz).sum ≤ n := by omega
        obtain ⟨fuel1, b, hb, hiff⟩ := ihrest hle
        refine ⟨fuel1 + 1, b, ?_, ?_⟩
        · simp [valid_path_exists_loop, hstore, hb]
        · rw [hiff]
          constructor
          · rintro ⟨r2, hr2, hInP⟩
            exact ⟨r2, List.mem_cons_of_mem r hr2, hInP⟩
          · rintro ⟨r2, hr2, hInP⟩
            rcases List.mem_cons.mp hr2 with hr2 | hr2
            · subst hr2
              cases hInP with
              | found _ s2 hstore2 _ => rw [hstore] at hstore2; cases hstore2
              | via _ s2 p hstore2 _ _ => rw [hstore] at hstore2; cases hstore2
            · exact ⟨r2, hr2, hInP⟩
      | fatalError => exact absurd hstore (hnofatal r)

theorem valid_path_loop_halts (store : StateRef → StateDecodeOutcome)
    (sz : StateRef → Nat) (current : StateRef)
    (hsz : ∀ r s, store r = .ok s → (s.parents.map sz).sum < sz r) :
    ∀ n stack, (stack.map sz).sum ≤ n →
      ∃ fuel res, valid_path_exists_loop store current fuel stack = some res := by
  intro n
  induction n using Nat.strong_induction_on with
  | _ n ihn =>
    intro stack
    induction stack with
    | nil =>
      intro _
      exact ⟨0, .ok false, rfl⟩
    | cons r rest ihrest =>
      intro hsum
      simp only [List.map_cons, List.sum_cons] at hsum
      cases hstore : store r with
      | ok s =>
        by_cases hmem : current ∈ s.parents
        · exact ⟨1, .ok true, by simp [valid_path_exists_loop, hstore, hmem]⟩
        · have hpar : (s.parents.map sz).sum < sz r := hsz r s hstore
          have hlt : ((s.parents.reverse ++ rest).map sz).sum < n := by
            simp only [List.map_append, List.sum_append, List.map_reverse,
              List.sum_reverse]
            omega
          obtain ⟨fuel1, res, hres⟩ :=
            ihn ((s.parents.reverse ++ rest).map sz).sum hlt
              (s.parents.reverse ++ rest) le_rfl
          exact ⟨fuel1 + 1, res, by simp [valid_path_exists_loop, hstore, hmem, hres]⟩
      | hashError =>
        have hle : (rest.map sz).sum ≤ n := by omega
        obtain ⟨fuel1, res, hres⟩ := ihrest hle
        exact ⟨fuel1 + 1, res, by simp [valid_path_exists_loop, hstore, hres]⟩
      | fatalError =>
        exact ⟨1, .error (), by simp [valid_path_exists_loop, hstore]⟩

/-- C3: over a tracking repository in which every stored state decodes
(no fatal decode errors, sizes decreasing along parent links): if the
current StateRef is transitively contained in the parents of the future
state, or the two inner hashes are equal, the path check succeeds and
update_tracking_branch advances the tracking ref to the future state; if
the current state is not reachable (and the hashes differ), the check
returns false and RatchetError is surfaced without advancing. -/
theorem ratchet_monotonicity (store : StateRef → StateDecodeOutcome)
    (sz : StateRef → Nat) (B A : StateRef)
    (hsz : ∀ r s, store r = .ok s → (s.parents.map sz).sum < sz r)
    (hnofatal : ∀ r, store r ≠ .fatalError) :
    ((B.val.sha256 = A.val.sha256 ∨ InParents store B A) →
      ∃ fuel, update_tracking_branch store (some B) (some A) fuel =
        some (.advance A)) ∧
    (B.val.sha256 ≠ A.val.sha256 → ¬ InParents store B A →
      ∃ fuel, update_tracking_branch store (some B) (some A) fuel =
        some .ratchetError) := by
  constructor
  · intro h
    by_cases hsha : B.val.sha256 = A.val.sha256
    · exact ⟨0, by simp [update_tracking_branch, valid_path_exists, hsha]⟩
    · have hInP : InParents store B A := by
        rcases h with h | h
        · exact absurd h hsha
        · exact h
      obtain ⟨fuel, b, hb, hiff⟩ :=
        valid_path_loop_char store sz B hsz hnofatal ([A].map sz).sum [A] le_rfl
      have hbtrue : b = true := hiff.mpr ⟨A, List.mem_singleton.mpr rfl, hInP⟩
      subst hbtrue
      exact ⟨fuel, by simp [update_tracking_branch, valid_path_exists, hsha, hb]⟩
  · intro hsha hInP
    obtain ⟨fuel, b, hb, hiff⟩ :=
      valid_path_loop_char store sz B hsz hnofatal ([A].map sz).sum [A] le_rfl
    have hbfalse : b = false := by
      cases b with
      | true =>
        obtain ⟨r, hr, hInPr⟩ := hiff.mp rfl
        rw [List.mem_singleton] at hr
        subst hr
        exact absurd hInPr hInP
      | false => rfl
    subst hbfalse
    exact ⟨fuel, by simp [update_tracking_branch, valid_path_exists, hsha, hb]⟩

theorem ratchet_monotonicity_witness :
    ∃ fuel, update_tracking_branch wStore (some wStateRefB) (some wStateRefA)
      fuel = some (.advance wStateRefA) :=
  (ratchet_monotonicity wStore wSz wStateRefB wStateRefA
    (by
      intro r s h
      dsimp [wStore] at h
      by_cases hr : r = wStateRefA
      · subst hr
        rw [if_pos rfl] at h
        cases h
        decide
      · rw [if_neg hr] at h
        cases h
        dsimp [wSz]
        rw [if_neg hr]
        decide)
    (by
      intro r
      dsimp [wStore]
      by_cases hr : r = wStateRefA
      · rw [if_pos hr]
        decide
      · rw [if_neg hr]
        decide)).1
    (Or.inr (InParents.found wStateRefA
      { namespaces := [], parents := [wStateRefB] }
      (by dsimp [wStore]) (by decide)))

theorem cyc_loop_none :
    ∀ fuel, valid_path_exists_loop cycStore cycCur fuel [cycRef] = none := by
  intro fuel
  induction fuel with
  | zero => rfl
  | succ fuel ih =>
    have hstore : cycStore cycRef = .ok { namespaces := [], parents := [cycRef] } :=
      rfl
    have hmem : cycCur ∉ ({ namespaces := [], parents := [cycRef] } : State).parents := by
      decide
    simp only [valid_path_exists_loop, hstore, hmem, if_false]
    simpa using ih

/-- C4 counterexample: on a store whose parent graph is a self loop the
ratchet walk never terminates, whatever iteration budget it is given:
the implementation keeps no visited set. -/
theorem ratchet_walk_diverges_on_cycle :
    ¬ RatchetTerminates cycStore cycCur cycRef := by
  rintro ⟨fuel, r, hr⟩
  have hsha : ¬ cycCur.val.sha256 = cycRef.val.sha256 := by decide
  simp only [valid_path_exists, hsha, if_false] at hr
  rw [cyc_loop_none fuel] at hr
  exact Option.noConfusion hr

/-- C4 (amended): the ratchet walk keeps no visited set; it terminates for
every store whose parent graph carries a decreasing size measure (every
finite acyclic store, diamonds included, though nodes may be revisited),
while a cyclic store makes it run forever. -/
theorem ratchet_walk_terminates_on_wf (store : StateRef → StateDecodeOutcome)
    (sz : StateRef → Nat) (cur fut : StateRef)
    (hsz : ∀ r s, store r = .ok s → (s.parents.map sz).sum < sz r) :
    RatchetTerminates store cur fut := by
  by_cases hsha : cur.val.sha256 = fut.val.sha256
  · exact ⟨0, .ok true, by simp [valid_path_exists, hsha]⟩
  · obtain ⟨fuel, res, hres⟩ :=
      valid_path_loop_halts store sz cur hsz ([fut].map sz).sum [fut] le_rfl
    exact ⟨fuel, res, by simp [valid_path_exists, hsha, hres]⟩

theorem ratchet_walk_terminates_on_wf_witness :
    RatchetTerminates wStore wStateRefB wStateRefA :=
  ratchet_walk_terminates_on_wf wStore wSz wStateRefB wStateRefA
    (by
      intro r s h
      dsimp [wStore] at h
      by_cases hr : r = wStateRefA
      · subst hr
        rw [if_pos rfl] at h
        cases h
        decide
      · rw [if_neg hr] at h
        cases h
        dsimp [wSz]
        rw [if_neg hr]
        decide)

/-! Properties of one insert_parents call of the descendant search. -/

theorem ips_vis_mono (old : ObjectId) :
    ∀ (ps vis stk : List ObjectId) (found : Bool) (x : ObjectId),
      x ∈ vis → x ∈ (insert_parents_step old ps vis stk found).1 := by
  intro ps
  induction ps with
  | nil => intro vis stk found x hx; simpa [insert_parents_step] using hx
  | cons p rest ih =>
    intro vis stk found x hx
    simp only [insert_parents_step]
    by_cases h1 : p ∈ vis
    · simp only [h1, if_true]
      exact ih vis stk found x hx
    · by_cases h2 : p = old
      · subst h2
        simp only [h1, if_false, eq_self_iff_true, if_true]
        exact ih (p :: vis) stk true x (List.mem_cons_of_mem p hx)
      · simp only [h1, if_false, h2]
        exact ih (p :: vis) (p :: stk) found x (List.mem_cons_of_mem p hx)

theorem ips_vis_sub (old : ObjectId) :
    ∀ (ps vis stk : List ObjectId) (found : Bool) (x : ObjectId),
      x ∈ (insert_parents_step old ps vis stk found).1 → x ∈ vis ∨ x ∈ ps := by
  intro ps
  induction ps with
  | nil => intro vis stk found x hx; simp [insert_parents_step] at hx; exact Or.inl hx
  | cons p rest ih =>
    intro vis stk found x hx
    simp only [insert_parents_step] at hx
    by_cases h1 : p ∈ vis
    · simp only [h1, if_true] at hx
      rcases ih vis stk found x hx with h | h
      · exact Or.inl h
      · exact Or.inr (List.mem_cons_of_mem p h)
    · by_cases h2 : p = old
      · subst h2
        simp only [h1, if_false, eq_self_iff_true, if_true] at hx
        rcases ih (p :: vis) stk true x hx with h | h
        · rcases List.mem_cons.mp h with h | h
          · exact Or.inr (h ▸ List.mem_cons_self p rest)
          · exact Or.inl h
        · exact Or.inr (List.mem_cons_of_mem p h)
      · simp only [h1, if_false, h2] at hx
        rcases ih (p :: vis) (p :: stk) found x hx with h | h
        · rcases List.mem_cons.mp h with h | h
          · exact Or.inr (h ▸ List.mem_cons_self p rest)
          · exact Or.inl h
        · exact Or.inr (List.mem_cons_of_mem p h)

theorem ips_stk_mono (old : ObjectId) :
    ∀ (ps vis stk : List ObjectId) (found : Bool) (x : ObjectId),
      x ∈ stk → x ∈ (insert_parents_step old ps vis stk found).2.1 := by
  intro ps
  induction ps with
  | nil => intro vis stk found x hx; simpa [insert_parents_step] using hx
  | cons p rest ih =>
    intro vis stk found x hx
    simp only [insert_parents_step]
    by_cases h1 : p ∈ vis
    · simp only [h1, if_true]
      exact ih vis stk found x hx
    · by_cases h2 : p = old
      · subst h2
        simp only [h1, if_false, eq_self_iff_true, if_true]
        exact ih (p :: vis) stk true x hx
      · simp only [h1, if_false, h2]
        exact ih (p :: vis) (p :: stk) found x (List.mem_cons_of_mem p hx)

theorem ips_stk_sub (old : ObjectId) :
    ∀ (ps vis stk : List ObjectId) (found : Bool) (x : ObjectId),
      x ∈ (insert_parents_step old ps vis stk found).2.1 → x ∈ stk ∨ x ∈ ps := by
  intro ps
  induction ps with
  | nil => intro vis stk found x hx; simp [insert_parents_step] at hx; exact Or.inl hx
  | cons p rest ih =>
    intro vis stk found x hx
    simp only [insert_parents_step] at hx
    by_cases h1 : p ∈ vis
    · simp only [h1, if_true] at hx
      rcases ih vis stk found x hx with h | h
      · exact Or.inl h
      · exact Or.inr (List.mem_cons_of_mem p h)
    · by_cases h2 : p = old
      · subst h2
        simp only [h1, if_false, eq_self_iff_true, if_true] at hx
        rcases ih (p :: vis) stk true x hx with h | h
        · exact Or.inl h
        · exact Or.inr (List.mem_cons_of_mem p h)
      · simp only [h1, if_false, h2] at hx
        rcases ih (p :: vis) (p :: stk) found x hx with h | h
        · rcases List.mem_cons.mp h with h | h
          · exact Or.inr (h ▸ List.mem_cons_self p rest)
          · exact Or.inl h
        · exact Or.inr (List.mem_cons_of_mem p h)

theorem ips_scanned (old : ObjectId) :
    ∀ (ps vis stk : List ObjectId) (found : Bool) (p : ObjectId),
      p ∈ ps → p ∈ (insert_parents_step old ps vis stk found).1 := by
  intro ps
  induction ps with
  | nil => intro vis stk found p hp; cases hp
  | cons q rest ih =>
    intro vis stk found p hp
    simp only [insert_parents_step]
    rcases List.mem_cons.mp hp with hp | hp
    · subst hp
      by_cases h1 : p ∈ vis
      · simp only [h1, if_true]
        exact ips_vis_mono old rest vis stk found p h1
      · by_cases h2 : p = old
        · subst h2
          simp only [h1, if_false, eq_self_iff_true, if_true]
          exact ips_vis_mono p rest (p :: vis) stk true p (List.mem_cons_self p vis)
        · simp only [h1, if_false, h2]
          exact ips_vis_mono old rest (p :: vis) (p :: stk) found p
            (List.mem_cons_self p vis)
    · by_cases h1 : q ∈ vis
      · simp only [h1, if_true]
        exact ih vis stk found p hp
      · by_cases h2 : q = old
        · subst h2
          simp only [h1, if_false, eq_self_iff_true, if_true]
          exact ih (q :: vis) stk true p hp
        · simp only [h1, if_false, h2]
          exact ih (q :: vis) (q :: stk) found p hp

theorem ips_found_iff (old : ObjectId) :
    ∀ (ps vis stk : List ObjectId) (found : Bool),
      (insert_parents_step old ps vis stk found).2.2 = true ↔
        (found = true ∨ (old ∈ ps ∧ old ∉ vis)) := by
  intro ps
  induction ps with
  | nil =>
    intro vis stk found
    simp [insert_parents_step]
  | cons p rest ih =>
    intro vis stk found
    simp only [insert_parents_step]
    by_cases h1 : p ∈ vis
    · simp only [h1, if_true]
      rw [ih vis stk found]
      constructor
      · rintro (h | ⟨hmem, hnv⟩)
        · exact Or.inl h
        · exact Or.inr ⟨List.mem_cons_of_mem p hmem, hnv⟩
      · rintro (h | ⟨hmem, hnv⟩)
        · exact Or.inl h
        · rcases List.mem_cons.mp hmem with h2 | h2
          · exact absurd (h2 ▸ h1) hnv
          · exact Or.inr ⟨h2, hnv⟩
    · by_cases h2 : p = old
      · subst h2
        simp only [h1, if_false, eq_self_iff_true, if_true]
        rw [ih (p :: vis) stk true]
        constructor
        · intro _
          exact Or.inr ⟨List.mem_cons_self p rest, not_false⟩
        · intro _
          exact Or.inl rfl
      · simp only [h1, if_false, h2]
        rw [ih (p :: vis) (p :: stk) found]
        have hop : ¬ old = p := fun h => h2 h.symm
        constructor
        · rintro (h | ⟨hmem, hnv⟩)
          · exact Or.inl h
          · have : old ∉ vis := fun hv => hnv (List.mem_cons_of_mem p hv)
            exact Or.inr ⟨List.mem_cons_of_mem p hmem, this⟩
        · rintro (h | ⟨hmem, hnv⟩)
          · exact Or.inl h
          · rcases List.mem_cons.mp hmem with h3 | h3
            · exact absurd h3 hop
            · refine Or.inr ⟨h3, ?_⟩
              intro hv
              rcases List.mem_cons.mp hv with h4 | h4
              · exact hop h4
              · exact hnv h4

theorem ips_new_pushed (old : ObjectId) :
    ∀ (ps vis stk : List ObjectId) (found : Bool) (x : ObjectId),
      x ∈ (insert_parents_step old ps vis stk found).1 →
        x ∈ vis ∨ x ∈ (insert_parents_step old ps vis stk found).2.1 ∨ x = old := by
  intro ps
  induction ps with
  | nil => intro vis stk found x hx; simp [insert_parents_step] at hx ⊢; exact Or.inl hx
  | cons p rest ih =>
    intro vis stk found x hx
    simp only [insert_parents_step] at hx ⊢
    by_cases h1 : p ∈ vis
    · simp only [h1, if_true] at hx ⊢
      exact ih vis stk found x hx
    · by_cases h2 : p = old
      · subst h2
        simp only [h1, if_false, eq_self_iff_true, if_true] at hx ⊢
        rcases ih (p :: vis) stk true x hx with h | h
        · rcases List.mem_cons.mp h with h3 | h3
          · exact Or.inr (Or.inr h3)
          · exact Or.inl h3
        · exact Or.inr h
      · simp only [h1, if_false, h2] at hx ⊢
        rcases ih (p :: vis) (p :: stk) found x hx with h | h
        · rcases List.mem_cons.mp h with h3 | h3
          · subst h3
            exact Or.inr (Or.inl (ips_stk_mono old rest (x :: vis) (x :: stk) found x
              (List.mem_cons_self x stk)))
          · exact Or.inl h3
        · exact Or.inr h

theorem ips_measure (old : ObjectId) (univ : List ObjectId) :
    ∀ (ps vis stk : List ObjectId) (found : Bool), (∀ p ∈ ps, p ∈ univ) →
      (insert_parents_step old ps vis stk found).2.1.length +
          (univ.toFinset \ (insert_parents_step old ps vis stk found).1.toFinset).card ≤
        stk.length + (univ.toFinset \ vis.toFinset).card := by
  intro ps
  induction ps with
  | nil => intro vis stk found _; simp [insert_parents_step]
  | cons p rest ih =>
    intro vis stk found hsub
    have hrest : ∀ q ∈ rest, q ∈ univ := fun q hq => hsub q (List.mem_cons_of_mem p hq)
    have hpu : p ∈ univ := hsub p (List.mem_cons_self p rest)
    simp only [insert_parents_step]
    by_cases h1 : p ∈ vis
    · simp only [h1, if_true]
      exact ih vis stk found hrest
    · have hcard : (univ.toFinset \ (p :: vis).toFinset).card =
          (univ.toFinset \ vis.toFinset).card - 1 := by
        rw [List.toFinset_cons, Finset.sdiff_insert, Finset.card_erase_of_mem]
        rw [Finset.mem_sdiff]
        exact ⟨List.mem_toFinset.mpr hpu, fun h => h1 (List.mem_toFinset.mp h)⟩
      have hpos : 0 < (univ.toFinset \ vis.toFinset).card := by
        apply Finset.card_pos.mpr
        exact ⟨p, Finset.mem_sdiff.mpr
          ⟨List.mem_toFinset.mpr hpu, fun h => h1 (List.mem_toFinset.mp h)⟩⟩
      by_cases h2 : p = old
      · subst h2
        simp only [h1, if_false, eq_self_iff_true, if_true]
        have := ih (p :: vis) stk true hrest
        omega
      · simp only [h1, if_false, h2]
        have := ih (p :: vis) (p :: stk) found hrest
        simp only [List.length_cons] at this
        omega

/-! The descendant search loop: termination, soundness, completeness. -/

theorem gdl_terminates (repo : RepoModel) (old : ObjectId) (univ : List ObjectId)
    (hclosed : ∀ o ∈ univ, ∀ p ∈ repo.parents o, p ∈ univ) :
    ∀ fuel (vis stk : List ObjectId), (∀ x ∈ stk, x ∈ univ) →
      stk.length + (univ.toFinset \ vis.toFinset).card < fuel →
      ∃ b, graph_descendant_loop repo old fuel vis stk = some b := by
  intro fuel
  induction fuel with
  | zero => intro vis stk _ hm; omega
  | succ fuel ih =>
    intro vis stk hstk hm
    cases stk with
    | nil => exact ⟨false, rfl⟩
    | cons id rest =>
      by_cases hf : (insert_parents_step old (repo.parents id) vis rest false).2.2
      · exact ⟨true, by simp [graph_descendant_loop, hf]⟩
      · have hid : id ∈ univ := hstk id (List.mem_cons_self id rest)
        have hps : ∀ p ∈ repo.parents id, p ∈ univ := hclosed id hid
        have hstk2 : ∀ x ∈ (insert_parents_step old (repo.parents id) vis rest false).2.1,
            x ∈ univ := by
          intro x hx
          rcases ips_stk_sub old (repo.parents id) vis rest false x hx with h | h
          · exact hstk x (List.mem_cons_of_mem id h)
          · exact hps x h
        have hmeas := ips_measure old univ (repo.parents id) vis rest false hps
        simp only [List.length_cons] at hm
        obtain ⟨b, hb⟩ := ih (insert_parents_step old (repo.parents id) vis rest false).1
          (insert_parents_step old (repo.parents id) vis rest false).2.1 hstk2 (by omega)
        exact ⟨b, by simp [graph_descendant_loop, hf, hb]⟩

theorem RP_extend (par : ObjectId → List ObjectId) (x n : ObjectId)
    (h : ReachesParent par x n) :
    ∀ p ∈ par x, ReachesParent par p n := by
  induction h with
  | base n2 hx =>
    intro p hp
    exact .step n2 x hx (.base x hp)
  | step n2 q hq hRP ih =>
    intro p hp
    exact .step n2 q hq (ih p hp)

theorem gdl_sound (repo : RepoModel) (old new : ObjectId) :
    ∀ fuel (vis stk : List ObjectId),
      (∀ x ∈ stk, x = new ∨ ReachesParent repo.parents x new) →
      graph_descendant_loop repo old fuel vis stk = some true →
      ReachesParent repo.parents old new := by
  intro fuel
  induction fuel with
  | zero =>
    intro vis stk _ hres
    cases stk with
    | nil => simp [graph_descendant_loop] at hres
    | cons id rest => simp [graph_descendant_loop] at hres
  | succ fuel ih =>
    intro vis stk hstk hres
    cases stk with
    | nil => simp [graph_descendant_loop] at hres
    | cons id rest =>
      by_cases hf : (insert_parents_step old (repo.parents id) vis rest false).2.2
      · have hfound := (ips_found_iff old (repo.parents id) vis rest false).mp hf
        rcases hfound with hfound | ⟨hold, _⟩
        · exact Bool.noConfusion hfound
        · rcases hstk id (List.mem_cons_self id rest) with h | h
          · exact h ▸ .base new (h ▸ hold)
          · exact RP_extend repo.parents id new h old hold
      · simp only [graph_descendant_loop, hf, if_false] at hres
        apply ih (insert_parents_step old (repo.parents id) vis rest false).1
          (insert_parents_step old (repo.parents id) vis rest false).2.1 _ hres
        intro x hx
        rcases ips_stk_sub old (repo.parents id) vis rest false x hx with h | h
        · exact hstk x (List.mem_cons_of_mem id h)
        · rcases hstk id (List.mem_cons_self id rest) with h2 | h2
          · exact Or.inr (h2 ▸ .base new (h2 ▸ h))
          · exact Or.inr (RP_extend repo.parents id new h2 x h)

theorem gdl_g_proj (repo : RepoModel) (old : ObjectId) :
    ∀ fuel (vis stk exp : List ObjectId),
      graph_descendant_loop repo old fuel vis stk =
        (graph_descendant_loop_g repo old fuel vis stk exp).map (fun t => t.1) := by
  intro fuel
  induction fuel with
  | zero =>
    intro vis stk exp
    cases stk with
    | nil => rfl
    | cons id rest => rfl
  | succ fuel ih =>
    intro vis stk exp
    cases stk with
    | nil => rfl
    | cons id rest =>
      by_cases hf : (insert_parents_step old (repo.parents id) vis rest false).2.2
      · simp [graph_descendant_loop, graph_descendant_loop_g, hf]
      · simp only [graph_descendant_loop, graph_descendant_loop_g, hf, if_false]
        exact ih (insert_parents_step old (repo.parents id) vis rest false).1
          (insert_parents_step old (repo.parents id) vis rest false).2.1 (id :: exp)

theorem gdl_g_false_inv (repo : RepoModel) (old : ObjectId) :
    ∀ fuel (vis stk exp visF expF : List ObjectId),
      graph_descendant_loop_g repo old fuel vis stk exp = some (false, visF, expF) →
      old ∉ vis →
      (∀ v ∈ vis, v ∈ stk ∨ v ∈ exp) →
      (∀ e ∈ exp, ∀ p ∈ repo.parents e, p ≠ old ∧ p ∈ vis) →
      (∀ x ∈ stk, x ∈ expF) ∧ (∀ x ∈ exp, x ∈ expF) ∧ (∀ v ∈ visF, v ∈ expF) ∧
        (∀ e ∈ expF, ∀ p ∈ repo.parents e, p ≠ old ∧ p ∈ visF) := by
  intro fuel
  induction fuel with
  | zero =>
    intro vis stk exp visF expF hres _ hinv1 hinv2
    cases stk with
    | nil =>
      simp only [graph_descendant_loop_g, Option.some.injEq, Prod.mk.injEq] at hres
      obtain ⟨_, hv, he⟩ := hres
      subst hv; subst he
      refine ⟨by simp, fun x hx => hx, ?_, hinv2⟩
      intro v hv
      rcases hinv1 v hv with h | h
      · cases h
      · exact h
    | cons id rest => simp [graph_descendant_loop_g] at hres
  | succ fuel ih =>
    intro vis stk exp visF expF hres hold hinv1 hinv2
    cases stk with
    | nil =>
      simp only [graph_descendant_loop_g, Option.some.injEq, Prod.mk.injEq] at hres
      obtain ⟨_, hv, he⟩ := hres
      subst hv; subst he
      refine ⟨by simp, fun x hx => hx, ?_, hinv2⟩
      intro v hv
      rcases hinv1 v hv with h | h
      · cases h
      · exact h
    | cons id rest =>
      by_cases hf : (insert_parents_step old (repo.parents id) vis rest false).2.2
      · simp [graph_descendant_loop_g, hf] at hres
      · simp only [graph_descendant_loop_g, hf, if_false] at hres
        have pre1 : old ∉ (insert_parents_step old (repo.parents id) vis rest false).1 := by
          intro hmem
          rcases ips_vis_sub old (repo.parents id) vis rest false old hmem with h | h
          · exact hold h
          · exact hf ((ips_found_iff old (repo.parents id) vis rest false).mpr
              (Or.inr ⟨h, hold⟩))
        have pre2 : ∀ v ∈ (insert_parents_step old (repo.parents id) vis rest false).1,
            v ∈ (insert_parents_step old (repo.parents id) vis rest false).2.1 ∨
              v ∈ id :: exp := by
          intro v hv
          rcases ips_new_pushed old (repo.parents id) vis rest false v hv with h | h | h
          · rcases hinv1 v h with h2 | h2
            · rcases List.mem_cons.mp h2 with h3 | h3
              · exact Or.inr (h3 ▸ List.mem_cons_self id exp)
              · exact Or.inl (ips_stk_mono old (repo.parents id) vis rest false v h3)
            · exact Or.inr (List.mem_cons_of_mem id h2)
          · exact Or.inl h
          · exact absurd (h ▸ hv) pre1
        have pre3 : ∀ e ∈ id :: exp, ∀ p ∈ repo.parents e,
            p ≠ old ∧ p ∈ (insert_parents_step old (repo.parents id) vis rest false).1 := by
          intro e he p hp
          rcases List.mem_cons.mp he with he | he
          · subst he
            refine ⟨?_, ips_scanned old (repo.parents e) vis rest false p hp⟩
            intro hpo
            exact hf ((ips_found_iff old (repo.parents e) vis rest false).mpr
              (Or.inr ⟨hpo ▸ hp, hold⟩))
          · obtain ⟨hne, hv⟩ := hinv2 e he p hp
            exact ⟨hne, ips_vis_mono old (repo.parents id) vis rest false p hv⟩
        obtain ⟨hA, hB, hC, hD⟩ := ih _ _ _ _ _ hres pre1 pre2 pre3
        refine ⟨?_, ?_, hC, hD⟩
        · intro x hx
          rcases List.mem_cons.mp hx with h | h
          · exact hB x (h ▸ List.mem_cons_self id exp)
          · exact hA x (ips_stk_mono old (repo.parents id) vis rest false x h)
        · intro x hx
          exact hB x (List.mem_cons_of_mem id hx)

theorem graph_descendant_of_char (repo : RepoModel) (univ : List ObjectId)
    (hclosed : ∀ o ∈ univ, ∀ p ∈ repo.parents o, p ∈ univ)
    (new old : ObjectId) (hnew : new ∈ univ) :
    ∃ fuel b, graph_descendant_of repo new old fuel = some b ∧
      (b = true ↔ (new = old ∨ ReachesParent repo.parents old new)) := by
  by_cases heq : new = old
  · exact ⟨0, true, by simp [graph_descendant_of, heq], by simp [heq]⟩
  · obtain ⟨b, hb⟩ := gdl_terminates repo old univ hclosed
      (univ.toFinset.card + 2) [] [new]
      (by intro x hx; rw [List.mem_singleton] at hx; exact hx ▸ hnew)
      (by simp only [List.length_singleton, List.toFinset_nil, Finset.sdiff_empty]; omega)
    refine ⟨univ.toFinset.card + 2, b, ?_, ?_⟩
    · simp only [graph_descendant_of, heq, if_false]
      exact hb
    cases b with
    | true =>
      have hRP := gdl_sound repo old new _ [] [new]
        (by intro x hx; rw [List.mem_singleton] at hx; exact Or.inl hx) hb
      exact ⟨fun _ => Or.inr hRP, fun _ => rfl⟩
    | false =>
      constructor
      · intro h
        exact Bool.noConfusion h
      · intro h
        rcases h with h | hRP
        · exact absurd h heq
        · have hproj := gdl_g_proj repo old (univ.toFinset.card + 2) [] [new] []
          rw [hb] at hproj
          obtain ⟨⟨b0, visF, expF⟩, hg, hfst⟩ := Option.map_eq_some'.mp hproj.symm
          simp only at hfst
          subst hfst
          obtain ⟨hA, hB, hC, hD⟩ := gdl_g_false_inv repo old _ [] [new] [] visF expF hg
            (by simp) (by simp) (by simp)
          have hnewexp : new ∈ expF := hA new (List.mem_singleton.mpr rfl)
          have key : ∀ x, ReachesParent repo.parents old x → x ∈ expF → False := by
            intro x hx
            induction hx with
            | base n hn =>
              intro hmem
              exact (hD n hmem old hn).1 rfl
            | step n p hp hR ih =>
              intro hmem
              exact ih (hC p (hD n hmem p hp).2)
          exact (key new hRP hnewexp).elim

/-- C5 counterexample: two Symbolic refs with the same name but different
captured snapshots are equal under shallow equality, yet the non-force
fast-forward check rejects the push (can_fast_forward compares full
structural equality and then rejects any Symbolic side). -/
theorem can_fast_forward_shallow_equal_refuted :
    Ref.shallow_equal wSymA wSymB = true ∧
      can_fast_forward wRepo "refs/heads/main" wSymA wSymB 0 = some (.ok false) := by
  constructor
  · rfl
  · rfl

/-- C5 (amended): for a non-force push of name from current to future with
a current value present: if current equals future under full structural
equality on Ref (a Symbolic must also match on its captured snapshot),
the push is allowed; otherwise a Symbolic on either side is rejected; a
refs/tags/ name is rejected; two Direct refs whose objects are not both
commits are rejected (a missing object is an error); and two Direct
commits are allowed exactly when future is a descendant of current in the
backend commit DAG, a commit counting as its own descendant. -/
theorem can_fast_forward_characterization (repo : RepoModel)
    (univ : List ObjectId)
    (hclosed : ∀ o ∈ univ, ∀ p ∈ repo.parents o, p ∈ univ)
    (name : String) (cur fut : Ref) :
    (cur = fut → ∀ fuel, can_fast_forward repo name cur fut fuel = some (.ok true)) ∧
    (cur ≠ fut → ((∃ s d, cur = .symbolic s d) ∨ (∃ s d, fut = .symbolic s d)) →
      ∀ fuel, can_fast_forward repo name cur fut fuel = some (.ok false)) ∧
    (∀ old new, cur = .direct old → fut = .direct new → cur ≠ fut →
      strStartsWith name "refs/tags/" →
      ∀ fuel, can_fast_forward repo name cur fut fuel = some (.ok false)) ∧
    (∀ old new ok1 nk1, cur = .direct old → fut = .direct new → cur ≠ fut →
      ¬ strStartsWith name "refs/tags/" →
      repo.kind old = some ok1 → repo.kind new = some nk1 →
      (ok1 ≠ .commit ∨ nk1 ≠ .commit) →
      ∀ fuel, can_fast_forward repo name cur fut fuel = some (.ok false)) ∧
    (∀ old new, cur = .direct old → fut = .direct new → cur ≠ fut →
      ¬ strStartsWith name "refs/tags/" →
      repo.kind old = some .commit → repo.kind new = some .commit →
      new ∈ univ →
      ∃ fuel b, can_fast_forward repo name cur fut fuel = some (.ok b) ∧
        (b = true ↔ (new = old ∨ ReachesParent repo.parents old new))) := by
  refine ⟨?_, ?_, ?_, ?_, ?_⟩
  · intro h fuel
    simp [can_fast_forward, h]
  · intro hne hsym fuel
    cases cur with
    | direct oc =>
      cases fut with
      | direct od =>
        rcases hsym with ⟨s, d, h⟩ | ⟨s, d, h⟩ <;> exact Ref.noConfusion h
      | symbolic s d => simp [can_fast_forward, hne]
    | symbolic s d =>
      cases fut with
      | direct od => simp [can_fast_forward, hne]
      | symbolic s2 d2 => simp [can_fast_forward, hne]
  · intro old new hc hf hne htag fuel
    subst hc; subst hf
    simp [can_fast_forward, hne, htag]
  · intro old new ok1 nk1 hc hf hne htag hk1 hk2 hnc fuel
    subst hc; subst hf
    simp [can_fast_forward, hne, htag, hk1, hk2, hnc]
  · intro old new hc hf hne htag hk1 hk2 hnewuniv
    subst hc; subst hf
    obtain ⟨fuel, b, hgdo, hiff⟩ :=
      graph_descendant_of_char repo univ hclosed new old hnewuniv
    refine ⟨fuel, b, ?_, hiff⟩
    simp [can_fast_forward, hne, htag, hk1, hk2, hgdo]

theorem can_fast_forward_characterization_witness :
    ∃ fuel, can_fast_forward wRepo "refs/heads/main"
      (.direct wOid1) (.direct wOid2) fuel = some (.ok true) := by
  obtain ⟨fuel, b, hb, hiff⟩ :=
    (can_fast_forward_characterization wRepo [wOid1, wOid2]
        (by
          intro o ho p hp
          dsimp [wRepo] at hp
          by_cases h2 : o = wOid2
          · rw [if_pos h2] at hp
            rw [List.mem_singleton] at hp
            subst hp
            exact List.mem_cons_self wOid1 [wOid2]
          · rw [if_neg h2] at hp
            cases hp)
        "refs/heads/main" (.direct wOid1) (.direct wOid2)).2.2.2.2
      wOid1 wOid2 rfl rfl (by decide) (by decide) rfl rfl (by decide)
  have hbtrue : b = true := hiff.mpr (Or.inr (.base wOid2 (by decide)))
  subst hbtrue
  exact ⟨fuel, hb⟩

/-! Serialization round trip lemmas. -/

theorem chunksExact20Aux_stable :
    ∀ f1 f2 (l : List Byte), l.length ≤ f1 → l.length ≤ f2 →
      chunksExact20Aux f1 l = chunksExact20Aux f2 l := by
  intro f1
  induction f1 with
  | zero =>
    intro f2 l h1 _
    have hl : l = [] := List.eq_nil_of_length_eq_zero (Nat.le_zero.mp h1)
    subst hl
    cases f2 with
    | zero => rfl
    | succ f2 => simp [chunksExact20Aux]
  | succ f1 ih =>
    intro f2 l h1 h2
    cases f2 with
    | zero =>
      have hl : l = [] := List.eq_nil_of_length_eq_zero (Nat.le_zero.mp h2)
      subst hl
      simp [chunksExact20Aux]
    | succ f2 =>
      simp only [chunksExact20Aux]
      by_cases h : l.length < 20
      · rw [dif_pos h, dif_pos h]
      · rw [dif_neg h, dif_neg h]
        have hl1 : (l.drop 20).length ≤ f1 := by simp [List.length_drop]; omega
        have hl2 : (l.drop 20).length ≤ f2 := by simp [List.length_drop]; omega
        rw [ih f2 (l.drop 20) hl1 hl2]

theorem chunksExact20_flatten_map (oids : List ObjectId) :
    chunksExact20 (oids.map Subtype.val).flatten = oids := by
  induction oids with
  | nil => rfl
  | cons o rest ih =>
    have holen : o.val.length = 20 := o.2
    have hlen : ((o :: rest).map Subtype.val).flatten.length =
        20 + ((rest.map Subtype.val).flatten).length := by
      simp [List.flatten_cons, holen]
    have hnl : ¬ ((o :: rest).map Subtype.val).flatten.length < 20 := by omega
    cases hf : ((o :: rest).map Subtype.val).flatten.length with
    | zero => omega
    | succ n =>
      simp only [chunksExact20, hf, chunksExact20Aux]
      rw [dif_neg (hf ▸ hnl)]
      have htake : (((o :: rest).map Subtype.val).flatten).take 20 = o.val := by
        simp only [List.map_cons, List.flatten_cons]
        exact List.take_left' holen
      have hdrop : (((o :: rest).map Subtype.val).flatten).drop 20 =
          (rest.map Subtype.val).flatten := by
        simp only [List.map_cons, List.flatten_cons]
        exact List.drop_left' holen
      congr 1
      · exact Subtype.ext htake
      · rw [hdrop]
        rw [chunksExact20Aux_stable n ((rest.map Subtype.val).flatten).length
          ((rest.map Subtype.val).flatten) (by omega) le_rfl]
        exact ih

theorem flatten_map_val_mod (oids : List ObjectId) :
    (oids.map Subtype.val).flatten.length % 20 = 0 := by
  induction oids with
  | nil => rfl
  | cons o rest ih =>
    have holen : o.val.length = 20 := o.2
    simp only [List.map_cons, List.flatten_cons, List.length_append, holen]
    omega

theorem rk_roundtrip (r : ResourceKey) :
    r.intoSerialized.tryIntoResourceKey = .ok r := by
  cases r with
  | git oids =>
    simp only [ResourceKey.intoSerialized, SerializedResourceKey.tryIntoResourceKey,
      flatten_map_val_mod, if_pos, chunksExact20_flatten_map]
  | annexKey k => rfl

theorem blobref_roundtrip (r : BlobRef) :
    r.intoSerialized.tryIntoBlobRef = .ok r := by
  simp [BlobRef.intoSerialized, SerializedBlobRef.tryIntoBlobRef, rk_roundtrip]

theorem stateref_roundtrip (r : StateRef) :
    r.intoSerialized.tryIntoStateRef = .ok r := by
  simp [StateRef.intoSerialized, SerializedStateRef.tryIntoStateRef, blobref_roundtrip]

theorem nsref_roundtrip (r : NamespaceRef) :
    r.intoSerialized.tryIntoNamespaceRef = .ok r := by
  simp [NamespaceRef.intoSerialized, SerializedNamespaceRef.tryIntoNamespaceRef,
    blobref_roundtrip]

theorem ref_roundtrip (r : Ref) : r.intoSerialized.tryIntoRef = .ok r := by
  cases r <;> rfl

theorem packref_roundtrip (r : PackRef) :
    r.intoSerialized.tryIntoPackRef = .ok r := by
  simp [PackRef.intoSerialized, SerializedPackRef.tryIntoPackRef, blobref_roundtrip]

theorem tryConvertList_map (f : α → Except String β) (g : β → α)
    (hfg : ∀ v, f (g v) = .ok v) :
    ∀ l : List β, tryConvertList f (l.map g) = .ok l := by
  intro l
  induction l with
  | nil => rfl
  | cons v rest ih =>
    simp only [List.map_cons, tryConvertList, hfg v, ih]

theorem tryConvertEntries_map (f : α → Except String β) (g : β → α)
    (hfg : ∀ v, f (g v) = .ok v) :
    ∀ l : List (String × β),
      tryConvertEntries f (l.map fun p => (p.1, g p.2)) = .ok l := by
  intro l
  induction l with
  | nil => rfl
  | cons p rest ih =>
    simp only [List.map_cons, tryConvertEntries, hfg p.2, ih]

theorem insertLe_map_snd (le : String → String → Bool) (g : β → γ)
    (a : String × β) :
    ∀ l : List (String × β),
      insertLe (fun x y => le x.1 y.1) (a.1, g a.2) (l.map fun p => (p.1, g p.2)) =
        (insertLe (fun x y => le x.1 y.1) a l).map fun p => (p.1, g p.2) := by
  intro l
  induction l with
  | nil => rfl
  | cons b rest ih =>
    simp only [List.map_cons, insertLe]
    by_cases h : le a.1 b.1 ∧ ¬ le b.1 a.1
    · simp [h]
    · simp only [h, if_false, List.map_cons, ih]

theorem insertionSortBy_map_snd (le : String → String → Bool) (g : β → γ) :
    ∀ l : List (String × β),
      insertionSortBy (fun x y => le x.1 y.1) (l.map fun p => (p.1, g p.2)) =
        (insertionSortBy (fun x y => le x.1 y.1) l).map fun p => (p.1, g p.2) := by
  intro l
  induction l with
  | nil => rfl
  | cons a rest ih =>
    simp only [List.map_cons, insertionSortBy, ih]
    exact insertLe_map_snd le g a (insertionSortBy (fun x y => le x.1 y.1) rest)

theorem insertLe_perm (le : α → α → Bool) (a : α) :
    ∀ l : List α, (insertLe le a l).Perm (a :: l) := by
  intro l
  induction l with
  | nil => exact List.Perm.refl _
  | cons b rest ih =>
    simp only [insertLe]
    by_cases h : le a b ∧ ¬ le b a
    · simp [h]
    · simp only [h, if_false]
      exact (ih.cons b).trans (List.Perm.swap a b rest)

theorem insertionSortBy_perm (le : α → α → Bool) :
    ∀ l : List α, (insertionSortBy le l).Perm l := by
  intro l
  induction l with
  | nil => exact List.Perm.refl _
  | cons a rest ih =>
    exact (insertLe_perm le a (insertionSortBy le rest)).trans (ih.cons a)

theorem lookup_eq_of_perm :
    ∀ {l1 l2 : List (String × α)}, l1.Perm l2 → (l1.map Prod.fst).Nodup →
      ∀ k, l1.lookup k = l2.lookup k := by
  intro l1 l2 h
  induction h with
  | nil => intro _ _; rfl
  | cons x h ih =>
    intro hnd k
    obtain ⟨k1, v1⟩ := x
    simp only [List.map_cons, List.nodup_cons] at hnd
    simp only [List.lookup]
    cases hbeq : k == k1 with
    | true => rfl
    | false => exact ih hnd.2 k
  | swap x y l =>
    intro hnd k
    obtain ⟨k1, v1⟩ := x
    obtain ⟨k2, v2⟩ := y
    simp only [List.map_cons, List.nodup_cons, List.mem_cons] at hnd
    simp only [List.lookup]
    cases hb2 : k == k2 with
    | true =>
      cases hb1 : k == k1 with
      | true =>
        have e2 : k = k2 := by simpa using hb2
        have e1 : k = k1 := by simpa using hb1
        exact absurd (Or.inl (e2.symm.trans e1)) hnd.1
      | false => rfl
    | false =>
      cases hb1 : k == k1 with
      | true => rfl
      | false => rfl
  | trans h12 h23 ih1 ih2 =>
    intro hnd k
    rw [ih1 hnd k]
    exact ih2 (((h12.map Prod.fst).nodup_iff).mp hnd) k

/-- C6 counterexample: a State whose parents are stored in descending
serialized order round trips to a State whose parents have been sorted;
the parents vector, hence the State, is not equal to the original. -/
theorem serialization_roundtrip_reorders_parents :
    SerializedState.tryIntoState c6State.intoSerialized =
        .ok { namespaces := [], parents := [wStateRefA, wStateRefB] } ∧
      ([wStateRefA, wStateRefB] : List StateRef) ≠ c6State.parents := by
  constructor
  · rfl
  · decide

/-- C6 (amended): the serialized-to-in-memory conversion undoes the
in-memory-to-serialized conversion up to the canonical reordering the
latter performs: maps come back with the same key-to-value bindings, and
State.parents comes back sorted by serialized bytes; when parents are
already in that canonical order (and map keys are distinct, as in a
HashMap), the round trip is the identity. -/
theorem serialization_round_trip (X : State) (N : Namespace)
    (hnodupX : (X.namespaces.map Prod.fst).Nodup)
    (hsorted : insertionSortBy leSerializedStateRef
        (X.parents.map StateRef.intoSerialized) =
      X.parents.map StateRef.intoSerialized)
    (hnodupN : (N.refs.map Prod.fst).Nodup) :
    (∃ Y, SerializedState.tryIntoState X.intoSerialized = .ok Y ∧ Y.rustEq X) ∧
    (∃ M, SerializedNamespace.tryIntoNamespace N.intoSerialized = .ok M ∧
      M.rustEq N) := by
  constructor
  · refine ⟨⟨insertionSortBy (fun x y => leStringKey x.1 y.1) X.namespaces,
        X.parents⟩, ?_, ?_, rfl⟩
    · have hns : tryConvertEntries SerializedNamespaceRef.tryIntoNamespaceRef
          (collectBTreeMap (X.namespaces.map fun p => (p.1, p.2.intoSerialized))) =
          .ok (insertionSortBy (fun x y => leStringKey x.1 y.1) X.namespaces) := by
        rw [collectBTreeMap,
          insertionSortBy_map_snd leStringKey NamespaceRef.intoSerialized X.namespaces]
        exact tryConvertEntries_map _ _ nsref_roundtrip _
      have hpar : tryConvertList SerializedStateRef.tryIntoStateRef
          (insertionSortBy leSerializedStateRef
            (X.parents.map StateRef.intoSerialized)) = .ok X.parents := by
        rw [hsorted]
        exact tryConvertList_map _ _ stateref_roundtrip X.parents
      simp only [State.intoSerialized, SerializedState.tryIntoState, hns, hpar]
    · intro k
      exact lookup_eq_of_perm
        (insertionSortBy_perm (fun x y => leStringKey x.1 y.1) X.namespaces)
        ((((insertionSortBy_perm (fun x y => leStringKey x.1 y.1)
          X.namespaces).map Prod.fst).nodup_iff).mpr hnodupX) k
  · refine ⟨⟨insertionSortBy (fun x y => leStringKey x.1 y.1) N.refs,
        N.pack, N.random_name⟩, ?_, ?_, rfl, rfl⟩
    · have hrefs : tryConvertEntries SerializedRef.tryIntoRef
          (collectBTreeMap (N.refs.map fun p => (p.1, p.2.intoSerialized))) =
          .ok (insertionSortBy (fun x y => leStringKey x.1 y.1) N.refs) := by
        rw [collectBTreeMap,
          insertionSortBy_map_snd leStringKey Ref.intoSerialized N.refs]
        exact tryConvertEntries_map _ _ ref_roundtrip _
      cases hpack : N.pack with
      | none =>
        simp only [Namespace.intoSerialized, SerializedNamespace.tryIntoNamespace,
          hpack, Option.map_none', hrefs]
      | some p =>
        simp only [Namespace.intoSerialized, SerializedNamespace.tryIntoNamespace,
          hpack, Option.map_some', hrefs, packref_roundtrip p]
    · intro k
      exact lookup_eq_of_perm
        (insertionSortBy_perm (fun x y => leStringKey x.1 y.1) N.refs)
        ((((insertionSortBy_perm (fun x y => leStringKey x.1 y.1)
          N.refs).map Prod.fst).nodup_iff).mpr hnodupN) k

theorem serialization_round_trip_witness :
    (∃ Y, SerializedState.tryIntoState c6WitState.intoSerialized = .ok Y ∧
      Y.rustEq c6WitState) ∧
    (∃ M, SerializedNamespace.tryIntoNamespace c6WitNs.intoSerialized = .ok M ∧
      M.rustEq c6WitNs) :=
  serialization_round_trip c6WitState c6WitNs (by decide) (by decide) (by decide)

/-! Command protocol. -/

/-- C7 counterexample: the line "pushy extra" has the first token "pushy",
which is none of the four protocol commands, yet parse_protocol_command
classifies it as Push (the parser uses starts_with for list, push and
fetch), so the line is dispatched to the push handler instead of being
ignored. -/
theorem parse_protocol_command_prefix_refuted :
    first_token "pushy extra" = "pushy" ∧
      ("pushy" ≠ "capabilities" ∧ "pushy" ≠ "list" ∧ "pushy" ≠ "push" ∧
        "pushy" ≠ "fetch") ∧
      parse_protocol_command "pushy extra" = .push := by
  refine ⟨?_, ⟨?_, ?_, ?_, ?_⟩, ?_⟩ <;> decide

/-- C7 (amended): a line whose first token is not exactly capabilities and
does not start with list, push or fetch is classified Ignore; the
dispatcher then invokes no handler and returns Ok, so the command loop
proceeds to the next line; and parsing is total, classifying every line
into one of the five commands (it never panics on malformed input). -/
theorem protocol_unrecognized_ignored (line : String)
    (hcap : first_token line ≠ "capabilities")
    (hlist : ¬ strStartsWith (first_token line) "list")
    (hpush : ¬ strStartsWith (first_token line) "push")
    (hfetch : ¬ strStartsWith (first_token line) "fetch") :
    parse_protocol_command line = .ignore ∧
      (∀ handler, dispatch_protocol_command handler line = .ok ()) ∧
      (∀ line2, parse_protocol_command line2 = .capabilities ∨
        parse_protocol_command line2 = .listRefs ∨
        parse_protocol_command line2 = .push ∨
        parse_protocol_command line2 = .fetch ∨
        parse_protocol_command line2 = .ignore) := by
  have hparse : parse_protocol_command line = .ignore := by
    simp [parse_protocol_command, hcap, hlist, hpush, hfetch]
  refine ⟨hparse, ?_, ?_⟩
  · intro handler
    simp [dispatch_protocol_command, hparse]
  · intro line2
    cases hp : parse_protocol_command line2
    · exact Or.inl rfl
    · exact Or.inr (Or.inl rfl)
    · exact Or.inr (Or.inr (Or.inl rfl))
    · exact Or.inr (Or.inr (Or.inr (Or.inl rfl)))
    · exact Or.inr (Or.inr (Or.inr (Or.inr rfl)))

theorem protocol_unrecognized_ignored_witness :
    parse_protocol_command "blah stuff" = .ignore ∧
      (∀ handler, dispatch_protocol_command handler "blah stuff" = .ok ()) ∧
      (∀ line2, parse_protocol_command line2 = .capabilities ∨
        parse_protocol_command line2 = .listRefs ∨
        parse_protocol_command line2 = .push ∨
        parse_protocol_command line2 = .fetch ∨
        parse_protocol_command line2 = .ignore) :=
  protocol_unrecognized_ignored "blah stuff" (by decide) (by decide) (by decide)
    (by decide)

/-! Push retry loop. -/

theorem push_loop_from_all_retry (attempt : Nat → Except Unit PushResult) :
    ∀ rem i, (∀ j, i ≤ j → j < i + rem → attempt j = .ok .retry) →
      push_loop_from attempt i rem = .error () := by
  intro rem
  induction rem with
  | zero => intro i _; rfl
  | succ rem ih =>
    intro i h
    have hi : attempt i = .ok .retry := h i le_rfl (by omega)
    simp only [push_loop_from, hi]
    exact ih (i + 1) (fun j h1 h2 => h j (by omega) (by omega))

theorem push_loop_from_congr (a b : Nat → Except Unit PushResult) :
    ∀ rem i, (∀ j, j < i + rem → a j = b j) →
      push_loop_from a i rem = push_loop_from b i rem := by
  intro rem
  induction rem with
  | zero => intro i _; rfl
  | succ rem ih =>
    intro i h
    have hi : a i = b i := h i (by omega)
    simp only [push_loop_from, hi]
    cases b i with
    | error e => rfl
    | ok r =>
      cases r with
      | ok st => rfl
      | retry => exact ih (i + 1) (fun j hj => h j (by omega))

/-- C8: a failed upstream push is classified for retry exactly when the
state identifier seen by the post-failure reconcile differs from the one
seen at the start of the attempt (otherwise the push error is surfaced);
the outer loop consults at most the first 25 attempts, and when all of
them ask for a retry it fails with an error. -/
theorem push_retry_policy :
    (∀ prev new : Option StateRef,
      (classify_failed_push_for_retry prev new = .ok .retry ↔ new ≠ prev) ∧
      (classify_failed_push_for_retry prev new = .error () ↔ new = prev)) ∧
    (∀ attempt, (∀ i, i < 25 → attempt i = .ok .retry) →
      push_loop attempt = .error ()) ∧
    (∀ a b : Nat → Except Unit PushResult, (∀ i, i < 25 → a i = b i) →
      push_loop a = push_loop b) := by
  refine ⟨?_, ?_, ?_⟩
  · intro prev new
    by_cases h : new = prev
    · have hcl : classify_failed_push_for_retry prev new = .error () := by
        simp [classify_failed_push_for_retry, h]
      rw [hcl]
      constructor
      · constructor
        · intro hc
          exact Except.noConfusion hc
        · intro hc
          exact absurd h hc
      · constructor
        · intro _
          exact h
        · intro _
          rfl
    · have hcl : classify_failed_push_for_retry prev new = .ok .retry := by
        simp [classify_failed_push_for_retry, h]
      rw [hcl]
      constructor
      · constructor
        · intro _
          exact h
        · intro _
          rfl
      · constructor
        · intro hc
          exact Except.noConfusion hc
        · intro hc
          exact absurd hc h
  · intro attempt h
    exact push_loop_from_all_retry attempt 25 0 (fun j _ hj => h j (by omega))
  · intro a b h
    exact push_loop_from_congr a b 25 0 (fun j hj => h j (by omega))

theorem push_retry_policy_witness :
    push_loop (fun _ => .ok .retry) = .error () :=
  push_retry_policy.2.1 (fun _ => .ok .retry) (fun _ _ => rfl)

/-! Namespace update on push. -/

theorem lookup_insertAssoc_self (k : String) (v : α) :
    ∀ l, (insertAssoc k v l).lookup k = some v := by
  intro l
  induction l with
  | nil => simp [insertAssoc, List.lookup]
  | cons p rest ih =>
    obtain ⟨k1, v1⟩ := p
    simp only [insertAssoc]
    by_cases h : k1 = k
    · simp [h, List.lookup]
    · simp only [h, if_false, List.lookup]
      have hbeq : (k == k1) = false := beq_eq_false_iff_ne.mpr fun hc => h hc.symm
      simp [hbeq, ih]

theorem lookup_insertAssoc_ne (k k2 : String) (v : α) (h : k2 ≠ k) :
    ∀ l, (insertAssoc k v l).lookup k2 = l.lookup k2 := by
  intro l
  have hbeq : (k2 == k) = false := beq_eq_false_iff_ne.mpr h
  induction l with
  | nil => simp [insertAssoc, List.lookup, hbeq]
  | cons p rest ih =>
    obtain ⟨k1, v1⟩ := p
    simp only [insertAssoc]
    by_cases h1 : k1 = k
    · subst h1
      simp [List.lookup, hbeq]
    · simp only [h1, if_false, List.lookup]
      cases hb2 : k2 == k1 with
      | true => rfl
      | false => exact ih

theorem lookup_removeAssoc_ne (k k2 : String) (h : k2 ≠ k) :
    ∀ l : List (String × α), (removeAssoc k l).lookup k2 = l.lookup k2 := by
  intro l
  induction l with
  | nil => rfl
  | cons p rest ih =>
    obtain ⟨k1, v1⟩ := p
    simp only [removeAssoc]
    by_cases h1 : k1 = k
    · subst h1
      have hbeq : (k2 == k1) = false := beq_eq_false_iff_ne.mpr h
      simp [List.lookup, hbeq, ih]
    · simp only [h1, if_false, List.lookup]
      cases hb2 : k2 == k1 with
      | true => rfl
      | false => exact ih

theorem unwp_refs_loop_preserve (repo : RepoModel) (fuel : Nat)
    (orig : List (String × Ref)) (name : String) :
    ∀ (rem : List (String × Ref)) (fut : Namespace) (st : List (String × Bool))
      (f : Namespace) (s : List (String × Bool)),
      (∀ q ∈ rem, q.1 ≠ name) →
      unwp_refs_loop repo fuel orig fut st rem = some (.ok (f, s)) →
      f.refs.lookup name = fut.refs.lookup name ∧ s.lookup name = st.lookup name := by
  intro rem
  induction rem with
  | nil =>
    intro fut st f s _ hrun
    simp only [unwp_refs_loop, Option.some.injEq, Except.ok.injEq,
      Prod.mk.injEq] at hrun
    obtain ⟨hf, hs⟩ := hrun
    rw [hf, hs]
    exact ⟨rfl, rfl⟩
  | cons q rest ih =>
    intro fut st f s hne hrun
    obtain ⟨k, t⟩ := q
    have hk : k ≠ name := hne (k, t) (List.mem_cons_self _ _)
    have hrest : ∀ q2 ∈ rest, q2.1 ≠ name :=
      fun q2 hq2 => hne q2 (List.mem_cons_of_mem _ hq2)
    simp only [unwp_refs_loop] at hrun
    cases hchk : (match orig.lookup k with
      | some current_target => can_fast_forward repo k current_target t fuel
      | none => some (.ok true)) with
    | none => rw [hchk] at hrun; exact Option.noConfusion hrun
    | some r =>
      cases r with
      | error e =>
        rw [hchk] at hrun
        simp only [Option.some.injEq] at hrun
        exact Except.noConfusion hrun
      | ok ff =>
        rw [hchk] at hrun
        obtain ⟨h1, h2⟩ := ih _ _ f s hrest hrun
        constructor
        · rw [h1]
          by_cases hff : ff
          · subst hff
            simp only [if_true]
            exact lookup_insertAssoc_ne k name t (fun hc => hk hc.symm) fut.refs
          · simp [hff]
        · rw [h2]
          exact lookup_insertAssoc_ne k name ff (fun hc => hk hc.symm) st

theorem unwp_force_loop_preserve (name : String) :
    ∀ (rem : List (String × Option Ref)) (fut : Namespace)
      (st : List (String × Bool)),
      (∀ q ∈ rem, q.1 ≠ name) →
      (unwp_force_loop fut st rem).1.refs.lookup name = fut.refs.lookup name ∧
        (unwp_force_loop fut st rem).2.lookup name = st.lookup name := by
  intro rem
  induction rem with
  | nil => intro fut st _; exact ⟨rfl, rfl⟩
  | cons q rest ih =>
    intro fut st hne
    obtain ⟨k, t⟩ := q
    have hk : k ≠ name := hne (k, t) (List.mem_cons_self _ _)
    have hkn : name ≠ k := fun hc => hk hc.symm
    have hrest : ∀ q2 ∈ rest, q2.1 ≠ name :=
      fun q2 hq2 => hne q2 (List.mem_cons_of_mem _ hq2)
    cases t with
    | some r =>
      simp only [unwp_force_loop]
      obtain ⟨h1, h2⟩ := ih _ _ hrest
      rw [h1, h2]
      exact ⟨lookup_insertAssoc_ne k name r hkn fut.refs,
        lookup_insertAssoc_ne k name true hkn st⟩
    | none =>
      simp only [unwp_force_loop]
      obtain ⟨h1, h2⟩ := ih _ _ hrest
      rw [h1, h2]
      exact ⟨lookup_removeAssoc_ne k name hkn fut.refs,
        lookup_insertAssoc_ne k name true hkn st⟩

theorem unwp_refs_loop_finds (repo : RepoModel) (fuel : Nat)
    (orig : List (String × Ref)) (name : String) (tgt : Ref)
    (hnone : orig.lookup name = none) :
    ∀ (rem : List (String × Ref)) (fut : Namespace) (st : List (String × Bool))
      (f : Namespace) (s : List (String × Bool)),
      (name, tgt) ∈ rem → (rem.map Prod.fst).Nodup →
      unwp_refs_loop repo fuel orig fut st rem = some (.ok (f, s)) →
      f.refs.lookup name = some tgt ∧ s.lookup name = some true := by
  intro rem
  induction rem with
  | nil => intro fut st f s hmem; cases hmem
  | cons q rest ih =>
    intro fut st f s hmem hnodup hrun
    obtain ⟨k, t⟩ := q
    simp only [List.map_cons, List.nodup_cons] at hnodup
    rcases List.mem_cons.mp hmem with hhead | htail
    · have hk2 : name = k := congrArg Prod.fst hhead
      have ht2 : tgt = t := congrArg Prod.snd hhead
      subst hk2
      subst ht2
      simp only [unwp_refs_loop, hnone] at hrun
      have hrest : ∀ q2 ∈ rest, q2.1 ≠ name := by
        intro q2 hq2 hc
        exact hnodup.1 (hc ▸ List.mem_map_of_mem Prod.fst hq2)
      obtain ⟨h1, h2⟩ := unwp_refs_loop_preserve repo fuel orig name rest _ _ f s
        hrest hrun
      constructor
      · rw [h1]
        simp only [if_true]
        exact lookup_insertAssoc_self name tgt fut.refs
      · rw [h2]
        exact lookup_insertAssoc_self name true st
    · have hk : k ≠ name := by
        intro hc
        exact hnodup.1 (hc ▸ List.mem_map_of_mem Prod.fst htail)
      simp only [unwp_refs_loop] at hrun
      cases hchk : (match orig.lookup k with
        | some current_target => can_fast_forward repo k current_target t fuel
        | none => some (.ok true)) with
      | none => rw [hchk] at hrun; exact Option.noConfusion hrun
      | some r =>
        cases r with
        | error e =>
          rw [hchk] at hrun
          simp only [Option.some.injEq] at hrun
          exact Except.noConfusion hrun
        | ok ff =>
          rw [hchk] at hrun
          exact ih _ _ f s htail hnodup.2 hrun

/-- C10: a non-force push spec for a name with no current value in the
namespace ref table is always admitted: the updated namespace maps the
name to the pushed target and the per-ref status records success; and on a
batch containing only that spec the outcome is the same for every
repository model and search budget, because no fast-forward check is
performed. -/
theorem new_ref_push_admitted (repo : RepoModel) (fuel : Nat) (ns : Namespace)
    (pack : Option PackRef) (refs : List (String × Ref))
    (force_refs : List (String × Option Ref)) (name : String) (tgt : Ref)
    (fut : Namespace) (st : List (String × Bool))
    (hmem : (name, tgt) ∈ refs)
    (hnodup : (refs.map Prod.fst).Nodup)
    (hnone : ns.refs.lookup name = none)
    (hforce : ∀ q ∈ force_refs, q.1 ≠ name)
    (hrun : update_namespace_with_push repo fuel ns pack refs force_refs =
      some (.ok (fut, st))) :
    (fut.refs.lookup name = some tgt ∧ st.lookup name = some true) ∧
    (∀ (repo2 : RepoModel) (fuel2 : Nat),
      update_namespace_with_push repo2 fuel2 ns pack [(name, tgt)] [] =
        some (.ok (⟨insertAssoc name tgt ns.refs, pack, ns.random_name⟩,
          [(name, true)]))) := by
  constructor
  · simp only [update_namespace_with_push] at hrun
    cases hloop : unwp_refs_loop repo fuel ns.refs ns [] refs with
    | none => rw [hloop] at hrun; exact Option.noConfusion hrun
    | some r =>
      cases r with
      | error e =>
        rw [hloop] at hrun
        simp only [Option.some.injEq] at hrun
        exact Except.noConfusion hrun
      | ok p =>
        obtain ⟨fut1, st1⟩ := p
        rw [hloop] at hrun
        simp only [Option.some.injEq, Except.ok.injEq, Prod.mk.injEq] at hrun
        obtain ⟨hfut, hst⟩ := hrun
        obtain ⟨hf1, hs1⟩ := unwp_refs_loop_finds repo fuel ns.refs name tgt hnone
          refs ns [] fut1 st1 hmem hnodup hloop
        obtain ⟨hp1, hp2⟩ := unwp_force_loop_preserve name force_refs fut1 st1 hforce
        constructor
        · rw [← hfut]
          show (unwp_force_loop fut1 st1 force_refs).1.refs.lookup name = some tgt
          rw [hp1, hf1]
        · rw [← hst, hp2, hs1]
  · intro repo2 fuel2
    simp only [update_namespace_with_push, unwp_refs_loop, hnone,
      unwp_force_loop]
    rfl

theorem new_ref_push_admitted_witness :
    (((⟨insertAssoc "refs/heads/main" (Ref.direct wOid1) wEmptyNs.refs, none,
        wEmptyNs.random_name⟩ : Namespace).refs.lookup "refs/heads/main" =
        some (Ref.direct wOid1) ∧
      ([("refs/heads/main", true)] : List (String × Bool)).lookup
        "refs/heads/main" = some true) ∧
    (∀ (repo2 : RepoModel) (fuel2 : Nat),
      update_namespace_with_push repo2 fuel2 wEmptyNs none
          [("refs/heads/main", Ref.direct wOid1)] [] =
        some (.ok (⟨insertAssoc "refs/heads/main" (Ref.direct wOid1)
          wEmptyNs.refs, none, wEmptyNs.random_name⟩,
          [("refs/heads/main", true)])))) :=
  new_ref_push_admitted wRepo 0 wEmptyNs none
    [("refs/heads/main", Ref.direct wOid1)] [] "refs/heads/main"
    (Ref.direct wOid1) _ _ (by decide) (by decide) rfl (by simp) rfl

end RR
